import Mathlib

/-
  Verification of the BaseEx base-conversion core: the generic
  `BaseConverter` (block-wise radix conversion over a charset), the
  `LEB128` variable-length integer codec and the `BasePhi` golden-ratio
  codec.

  Conventions of the shallow embedding:
  * JavaScript strings are modelled as `List Char`; `Uint8Array` and
    plain arrays of byte values are modelled as `List Nat` (with
    `< 256` bounds carried as hypotheses where they matter).
  * JavaScript `BigInt` arithmetic is exact and is modelled by `Nat`
    (or `Int` where the source value can be negative); `x >> 7n` on a
    BigInt is an arithmetic (floor) shift and `x & 127n` takes the low
    seven bits in two's complement, so they are modelled by `Int.ediv`
    and `Int.emod` with the positive divisor 128.
  * Big.js decimal arithmetic (used by BasePhi) performs exact
    plus / minus / comparison on decimal fractions; it is modelled by
    `ℚ`.  Its `round(dp)` uses the default rounding mode
    ROUND_HALF_UP, "round to nearest, ties away from zero".
  * `Math.log`-based comparisons in `guessBS` are modelled by their
    exact real meaning: `(bsEnc * 8) * ln 2 / ln radix < d` iff
    `2 ^ (bsEnc * 8) < radix ^ d`.
  * Functions that can throw return `Except String _`; a `while` loop
    of the source that can fail to terminate (the leading-zero
    stripper of `decode` on an all-zero array) makes the embedded
    function return `Option _`, with `none` on the diverging path.
  * The "smart" input/output type-coercion layer is, per the spec, an
    external collaborator; codecs that feed bytes through the radix-10
    bridge (`LEB128`, `BasePhi`) are modelled directly on the integer
    value that bridge carries, which the bridge preserves exactly.
-/

/-! ## Positional digit arithmetic shared by encode and decode

`digitsBE r n` is the digit list (most significant first) produced by
the source's repeated-divmod loop: divide by `r` while the quotient is
at least `r`, unshifting each remainder, then unshift the final
quotient.  `hornerPos r` is the value read back off such a list, the
same fold `(n << 8n) + byte` (for r = 256) that the encoder's block
loop performs. -/

def digitsBEGo (radix : Nat) : Nat → Nat → List Nat
  | 0, n => [n]
  | fuel + 1, n =>
    if radix ≤ 1 ∨ n < radix then [n]
    else digitsBEGo radix fuel (n / radix) ++ [n % radix]

def digitsBE (radix n : Nat) : List Nat := digitsBEGo radix n n

def hornerPos (r : Nat) (ds : List Nat) : Nat :=
  ds.foldl (fun n d => n * r + d) 0

/-- The source iterates `for (i = 0; i < l; i += bs)` over an array
whose length is a multiple of `bs`; `chunks bs l` is the list of the
`bs`-sized groups it visits.  (`bs = 0` only ever occurs together with
an empty array, where the loop body never runs.) -/
def chunksGo (bs : Nat) : Nat → List Nat → List (List Nat)
  | 0, _ => []
  | fuel + 1, l =>
    if bs = 0 ∨ l = [] then []
    else l.take bs :: chunksGo bs fuel (l.drop bs)

def chunks (bs : Nat) (l : List Nat) : List (List Nat) := chunksGo bs l.length l

/-- The decoder's inner loop `n += byteArray[i+j] * pow(bs-1-j)`,
walking the block with explicit positional weights. -/
def blockValGo (r bs j : Nat) : List Nat → Nat
  | [] => 0
  | d :: ds => d * r ^ (bs - 1 - j) + blockValGo r bs (j + 1) ds

def blockVal (r bs : Nat) (block : List Nat) : Nat :=
  blockValGo r bs 0 block

/-- `n.toString()` of a BigInt: decimal digits. -/
def decimalChars (n : Nat) : List Char :=
  (digitsBE 10 n).map (fun d => Char.ofNat (48 + d))

/-! ## BaseConverter -/

structure BaseConverter where
  radix : Nat
  bsEnc : Nat
  bsDec : Nat
  decPadVal : Nat

/-- The `while (bsDecPre > 8 && !(bsDecPre % 8))` reduction loop of
`guessBS`. -/
def reduceBsDecPreGo : Nat → Nat → Nat
  | 0, x => x
  | fuel + 1, x => if 8 < x ∧ x % 8 = 0 then reduceBsDecPreGo fuel (x / 8) else x

def reduceBsDecPre (x : Nat) : Nat := reduceBsDecPreGo x x

/-- The `while (((bsEnc * 8) * Math.log(2) / Math.log(radix)) < bsDecPre)
bsEnc++` search, with the comparison in its exact-real form
`2 ^ (bsEnc * 8) < radix ^ d`.  The fuel always exceeds the number of
iterations actually needed for the radices the library supports. -/
def bsEncSearch (radix d : Nat) : Nat → Nat → Nat
  | 0, bsEnc => bsEnc
  | fuel + 1, bsEnc =>
    if 2 ^ (bsEnc * 8) < radix ^ d then bsEncSearch radix d fuel (bsEnc + 1)
    else bsEnc

/-- `Math.ceil((bsEnc * 8) * Math.log(2) / Math.log(radix))` in exact
form: the least `k` with `2 ^ m ≤ radix ^ k`. -/
def ceilLogPow (radix m : Nat) : Nat → Nat → Nat
  | 0, k => k
  | fuel + 1, k =>
    if 2 ^ m ≤ radix ^ k then k else ceilLogPow radix m fuel (k + 1)

def BaseConverter.guessBS (radix : Nat) : Nat × Nat :=
  let bsDecPre := if radix < 8 then radix else (256 + radix - 1) / radix
  let d := reduceBsDecPre bsDecPre
  let bsEnc := bsEncSearch radix d (d * radix + 16) 0
  let bsDec := ceilLogPow radix (bsEnc * 8) (bsEnc * 8 + 16) 0
  (bsEnc, bsDec)

/-- The constructor: explicit block sizes are taken when both are
given (non-null), otherwise both come from `guessBS`. -/
def BaseConverter.make (radix : Nat) (bsEnc bsDec : Option Nat) (decPadVal : Nat) :
    BaseConverter :=
  match bsEnc, bsDec with
  | some e, some d => ⟨radix, e, d, decPadVal⟩
  | _, _ => ⟨radix, (BaseConverter.guessBS radix).1, (BaseConverter.guessBS radix).2, decPadVal⟩

def BaseConverter.padBytes (c : BaseConverter) (charCount : Nat) : Nat :=
  charCount * c.bsDec / c.bsEnc

/-- `Math.ceil((byteCount * this.bsEnc) / this.bsDec)`; only called
with `bsDec ≠ 0`, where the ceiling division below is exact. -/
def BaseConverter.padChars (c : BaseConverter) (byteCount : Nat) : Nat :=
  (byteCount * c.bsEnc + c.bsDec - 1) / c.bsDec

/-- One block of the encoder: read the block as a big-endian number,
peel radix digits, left-pad with zero digits to `bsDec`. -/
def encodeBlockDigits (c : BaseConverter) (block : List Nat) : List Nat :=
  let ds := digitsBE c.radix (hornerPos 256 block)
  List.replicate (c.bsDec - ds.length) 0 ++ ds

/-- The digits of a block mapped through the charset (`charset[charIndex]`). -/
def encodeBlock (c : BaseConverter) (charset : List Char) (block : List Nat) : List Char :=
  (encodeBlockDigits c block).map (fun d => charset.getD d ' ')

/-- `BaseConverter.encode`, including the observable state of the
caller's byte array after the call: for little-endian input the source
calls `inputBytes.reverse()`, which reverses the `Uint8Array` in
place.  The result is `((output string, zeroPadding), inputBytes after
the call)`. -/
def BaseConverter.encodeFull (c : BaseConverter) (inputBytes : List Nat)
    (charset : List Char) (littleEndian : Bool) : (List Char × Nat) × List Nat :=
  let bs := if c.bsEnc = 0 then inputBytes.length else c.bsEnc
  let zeroPadding := if bs = 0 then 0 else (bs - inputBytes.length % bs) % bs
  let zeroArray := List.replicate zeroPadding 0
  let inputAfter := if littleEndian then inputBytes.reverse else inputBytes
  let byteArray :=
    if littleEndian then zeroArray ++ inputBytes.reverse else inputBytes ++ zeroArray
  if c.radix = 10 then
    ((decimalChars (hornerPos 256 (byteArray.take bs)), 0), inputAfter)
  else
    ((((chunks bs byteArray).map (fun block => encodeBlock c charset block)).flatten,
      zeroPadding), inputAfter)

def BaseConverter.encode (c : BaseConverter) (inputBytes : List Nat)
    (charset : List Char) (littleEndian : Bool) : List Char × Nat :=
  (c.encodeFull inputBytes charset littleEndian).1

/-- One block of the decoder: positional value, then repeated divmod
by 256, left-padded with zero bytes to `bsEnc`. -/
def decodeBlockBytes (c : BaseConverter) (bs : Nat) (block : List Nat) : List Nat :=
  let ds := digitsBE 256 (blockVal c.radix bs block)
  List.replicate (c.bsEnc - ds.length) 0 ++ ds

/-- The decoder after the character-to-digit step.  Little-endian
output strips leading zero bytes with `while (!b256Array[0])
b256Array.shift()`, a loop that does not terminate when the array is
all zeros (and longer than one): that path is `none`.  Big-endian
output drops `padChars` of the bytes from the end
(`splice(length - padding)`). -/
def BaseConverter.decodeFromDigits (c : BaseConverter) (digits0 : List Nat)
    (littleEndian : Bool) : Option (List Nat) :=
  let pc := if c.bsDec = 0 then 0 else (c.bsDec - digits0.length % c.bsDec) % c.bsDec
  let digits :=
    if c.bsDec = 0 then digits0
    else if littleEndian then List.replicate pc c.decPadVal ++ digits0
    else digits0 ++ List.replicate pc c.decPadVal
  let bs := if c.bsDec = 0 then digits0.length else c.bsDec
  let b256 := ((chunks bs digits).map (fun block => decodeBlockBytes c bs block)).flatten
  if littleEndian then
    if 1 < b256.length then
      if b256.all (fun x => x = 0) then none
      else
        let s := b256.dropWhile (fun x => x = 0)
        let s2 := if s = [] then [0] else s
        some s2.reverse
    else some b256
  else if c.bsDec ≠ 0 then
    some (b256.take (b256.length - c.padChars pc))
  else some b256

/-- Character-to-digit step of the decoder: `charset.indexOf(c)`,
keeping only indices `> -1` (characters found in the charset). -/
def charsetDigits (charset : List Char) (input : List Char) : List Nat :=
  input.filterMap (fun ch => if ch ∈ charset then some (charset.indexOf ch) else none)

def BaseConverter.decode (c : BaseConverter) (input : List Char)
    (charset : List Char) (littleEndian : Bool) : Option (List Nat) :=
  if input = [] then some []
  else c.decodeFromDigits (charsetDigits charset input) littleEndian

/-! ## LEB128

`LEB128.encode` first runs the input through the type-coercion layer
(forcing `settings.signed`, so `negative` is exactly "the input was
negative") and the radix-10 bridge `BaseConverter(10, 0, 0)`, which
reproduce the input's integer value exactly; the embedding therefore
takes the signed integer value directly.  The two emission loops and
the decoder's accumulation loop are embedded verbatim. -/

/-- The signed emission loop: `byte = n & 127n; n >>= 7n;` stop when
the remainder is a pure sign extension of the emitted group
(`n == 0 && !(byte & 64)` or `n == -1 && (byte & 64)`), else push
`byte | 128` and continue. -/
def lebLoopSGo : Nat → Int → List Nat
  | 0, n => [(n.emod 128).toNat]
  | fuel + 1, n =>
    let byte := (n.emod 128).toNat
    let n2 := n.ediv 128
    if (n2 = 0 ∧ byte &&& 64 = 0) ∨ (n2 = -1 ∧ byte &&& 64 ≠ 0) then [byte]
    else (byte ||| 128) :: lebLoopSGo fuel n2

def lebLoopS (n : Int) : List Nat := lebLoopSGo n.natAbs n

/-- The unsigned emission loop; it only runs on a non-negative value
(the negative case has already thrown), so it is stated on `Nat`:
`byte = n & 127n; n >>= 7n;` stop as soon as `n == 0`. -/
def lebLoopUGo : Nat → Nat → List Nat
  | 0, n => [n % 128]
  | fuel + 1, n =>
    if n / 128 = 0 then [n % 128]
    else (n % 128 ||| 128) :: lebLoopUGo fuel (n / 128)

def lebLoopU (n : Nat) : List Nat := lebLoopUGo n n

/-- `LEB128.encode` on the integer value carried by the radix-10
bridge.  `negative` (the input was negative) with `signed` off throws
`TypeError("Negative values in unsigned mode are invalid.")` before
any byte is emitted; otherwise the matching emission loop runs on the
signed value. -/
def LEB128.encode (value : Int) (signed : Bool) : Except String (List Nat) :=
  if value < 0 ∧ signed = false then
    .error "Negative values in unsigned mode are invalid."
  else if signed then .ok (lebLoopS value)
  else .ok (lebLoopU value.toNat)

/-- The decoder's accumulation loop: starting from
`n = 0, shiftVal = -7`, each byte does `shiftVal += 7;
n += (byte & 127) << shiftVal`.  The state is `(n, shift after the
byte)`, so the fold starts at `(0, 0)` and leaves `shiftVal + 7` in
the second component. -/
def lebDecodeFold (input : List Nat) : Int × Nat :=
  input.foldl (fun p b => (p.1 + ((b &&& 127 : Nat) : Int) * 2 ^ p.2, p.2 + 7)) (0, 0)

/-- `LEB128.decode` up to the integer value it hands to the radix-10
bridge: the single-zero-byte fast path, the accumulation loop, and in
signed mode `n |= -(1n << shiftVal + 7n)` when bit 6 of the final byte
is set (BigInt two's-complement or). -/
def LEB128.decodeCore (input : List Nat) (signed : Bool) : Int :=
  if input = [0] then 0
  else
    let st := lebDecodeFold input
    if signed ∧ (input.getLastD 0) &&& 64 ≠ 0 then Int.lor st.1 (-(2 ^ st.2))
    else st.1

/-- The value a byte list denotes under the decoder's recurrence:
`Σ (bᵢ & 127) · 128^i`, least significant group first. -/
def sumLE : List Nat → Nat
  | [] => 0
  | b :: rest => (b &&& 127) + 128 * sumLE rest

/-- A continuation-terminated byte sequence: nonempty, every byte but
the last carries the continuation bit (`128 ≤ b < 256`), and the final
byte does not (`b < 128`). -/
abbrev ContinuationTerminated (bs : List Nat) : Prop :=
  bs ≠ [] ∧ (∀ b ∈ bs.dropLast, 128 ≤ b ∧ b < 256) ∧ bs.getLastD 0 < 128

/-- A valid unsigned LEB128 encoding of `n`: continuation-terminated
and decoding to `n` under the decode recurrence (`LEB128.decodeCore`
in unsigned mode). -/
abbrev ValidUnsigned (bs : List Nat) (n : Nat) : Prop :=
  ContinuationTerminated bs ∧ LEB128.decodeCore bs false = (n : Int)

/-! ## BasePhi

Big.js numbers are exact decimal fractions under the operations
BasePhi uses (`plus`, `minus`, `eq/lt/gt/lte`, `round`), so they are
embedded as rationals.  `#Phi` is the 120-decimal-digit constant of
the source, not the irrational golden ratio.  The type-coercion /
radix-10 bridge (`Big(this.b10.encode(inputBytes)[0])`) reproduces the
input's numeric value exactly and is an external collaborator per the
spec, so `encode` takes the value and the `negative` flag directly.
The recursions of the source (`while (cur.lt(n))`, `reduceN`) have no
structural measure, so they take a fuel argument that strictly
dominates the iteration count for every input the claims touch. -/

def PhiBig : ℚ :=
  (1618033988749894848204586834365638117720309179805762862135448622705260462818902449707207204189391137484754088075386891752 : ℚ) / 10 ^ 120

/-- Big.js `round(dp)` with the default ROUND_HALF_UP mode: round to
`dp` decimal places, ties away from zero. -/
def bigRound (dp : Nat) (x : ℚ) : ℚ :=
  if x < 0 then -((Rat.floor ((-x) * 10 ^ dp + 1 / 2) : ℚ) / 10 ^ dp)
  else (Rat.floor (x * 10 ^ dp + 1 / 2) : ℚ) / 10 ^ dp

/-- `#approxNull(n)`: `!(n.round(50).abs().toNumber())`. -/
def approxNull (n : ℚ) : Bool := bigRound 50 n = 0

/-- `#nextPhiExp(last, cur) = [cur, last.plus(cur)]`. -/
def nextPhiExp (last cur : ℚ) : ℚ × ℚ := (cur, last + cur)

/-- `#prevPhiExp(cur, prev) = [prev.minus(cur), cur]`. -/
def prevPhiExp (cur prev : ℚ) : ℚ × ℚ := (prev - cur, cur)

/-- The initial search `while (cur.lt(n)) { [last, cur] =
nextPhiExp(last, cur); exp++ }`. -/
def findStartExp : Nat → ℚ → ℚ → ℚ → Int → ℚ × ℚ × Int
  | 0, _, last, cur, exp => (last, cur, exp)
  | fuel + 1, n, last, cur, exp =>
    if cur < n then findStartExp fuel n (nextPhiExp last cur).1 (nextPhiExp last cur).2 (exp + 1)
    else (last, cur, exp)

/-- `reduceN(cur, prev, exp)` with the captured mutable state made
explicit: returns the final `(exponents, decExponents)` pair.  One
unit of fuel per loop iteration (both the inner `while (cur.gt(n))`
steps and the outer recursive calls). -/
def reduceNGo : Nat → ℚ → ℚ → ℚ → Int → List Int → List Int → List Int × List Int
  | 0, _, _, _, _, exps, decs => (exps, decs)
  | fuel + 1, n, cur, prev, exp, exps, decs =>
    if approxNull n then (exps, decs)
    else if n < cur then
      let s := prevPhiExp cur prev
      if s.1 ≤ 0 then (exps, decs)
      else reduceNGo fuel n s.1 s.2 (exp - 1) exps decs
    else
      let exps2 := if exp > -1 then exp :: exps else exps
      let decs2 := if exp > -1 then decs else decs ++ [exp]
      reduceNGo fuel (n - cur) cur prev exp exps2 decs2

/-- One step of the integer-part renderer: `while (exp < nExp)
{ output = charset[0] + output; exp++ }; output = charset[1] + output;
exp++`. -/
def renderIntStep (charset : List Char) (st : List Char × Int) (nExp : Int) : List Char × Int :=
  (charset.getD 1 ' ' :: (List.replicate (nExp - st.2).toNat (charset.getD 0 ' ') ++ st.1),
   nExp + 1)

/-- One step of the fractional-part renderer: `while (exp > nExp)
{ output += charset[0]; exp-- }; output += charset[1]; exp--`. -/
def renderFracStep (charset : List Char) (st : List Char × Int) (nExp : Int) : List Char × Int :=
  (st.1 ++ List.replicate (st.2 - nExp).toNat (charset.getD 0 ' ') ++ [charset.getD 1 ' '],
   nExp - 1)

def phiFuel : Nat := 1000

/-- `BasePhi.encode` on the bridged value `n` and its sign flag. -/
def BasePhi.encode (charset : List Char) (n : ℚ) (negative : Bool) : List Char :=
  if n = 0 ∨ n = 1 then
    let output := [charset.getD (if n = 0 then 0 else 1) ' ']
    if negative then '-' :: output else output
  else
    let s := findStartExp phiFuel n 1 PhiBig 0
    let ed := reduceNGo phiFuel n s.1 s.2.1 s.2.2 [] []
    let intPart := (ed.1.foldl (renderIntStep charset) ([], 0)).1
    let withDot := if intPart = [] then ['0', '.'] else intPart ++ ['.']
    let full := (ed.2.foldl (renderFracStep charset) (withDot, -1)).1
    if negative then '-' :: full else full

/-- `extractSign` of the utils: strip one leading `-`. -/
def extractSign (input : List Char) : List Char × Bool :=
  if input.headD ' ' = '-' then (input.drop 1, true) else (input, false)

/-- `input.split(".")` destructured to its first two fields. -/
def splitOnDot (l : List Char) : List Char × List Char :=
  let a := l.takeWhile (fun c => c ≠ '.')
  let r := l.drop (a.length + 1)
  (a, r.takeWhile (fun c => c ≠ '.'))

/-- The integer-part loop of `BasePhi.decode` (characters already
reversed): add `cur` on digit 1, `CharsetError` on a character that is
neither digit (in the source `indexOf` yields `-1` there; here the
not-found sentinel is `charset.length`, equally distinct from 0
and 1), then `[last, cur] = nextPhiExp(last, cur)`. -/
def phiIntSum (charset : List Char) : List Char → ℚ → ℚ → ℚ → Except String ℚ
  | [], _, _, n => .ok n
  | ch :: rest, last, cur, n =>
    let ci := charset.indexOf ch
    if ci = 1 ∨ ci = 0 then
      phiIntSum charset rest (nextPhiExp last cur).1 (nextPhiExp last cur).2
        (if ci = 1 then n + cur else n)
    else .error "CharsetError"

/-- The fractional-part loop: add `cur` on digit 1, then
`[cur, prev] = prevPhiExp(cur, prev)`. -/
def phiFracSum (charset : List Char) : List Char → ℚ → ℚ → ℚ → Except String ℚ
  | [], _, _, n => .ok n
  | ch :: rest, cur, prev, n =>
    let ci := charset.indexOf ch
    if ci = 1 ∨ ci = 0 then
      phiFracSum charset rest (prevPhiExp cur prev).1 (prevPhiExp cur prev).2
        (if ci = 1 then n + cur else n)
    else .error "CharsetError"

/-- The radix-10 bridge instance `new BaseConverter(10, 0, 0)`. -/
def b10 : BaseConverter := ⟨10, 0, 0, 0⟩

/-- `BasePhi.decode` up to the integer it hands to the output
compiler: sum the φ-powers of the digit positions, `round()` half-up
to an integer, print it in decimal (`toFixed`; a sign character would
be skipped by the bridge's charset filter, hence `natAbs`), feed the
digits back through `b10.decode` — the source passes the array `[]`
for `littleEndian`, which is truthy — and read the bytes back
big-endian as the output compiler does; the φ-string's own sign is
applied at the end. -/
def BasePhi.decodeInt (charset : List Char) (input0 : List Char) : Except String Int :=
  let es := extractSign input0
  let parts := splitOnDot es.1
  match phiIntSum charset parts.1.reverse (PhiBig - 1) 1 0 with
  | .error e => .error e
  | .ok n1 =>
    match (if parts.2 = [] then .ok n1 else phiFracSum charset parts.2 (PhiBig - 1) 1 n1 :
        Except String ℚ) with
    | .error e => .error e
    | .ok n2 =>
      let r := bigRound 0 n2
      match b10.decode (decimalChars r.num.natAbs) "0123456789".toList true with
      | none => .error "unreachable: the decimal bridge diverged"
      | some bytes =>
        .ok ((if es.2 then -1 else 1) * (hornerPos 256 bytes : Int))

/-- `s'` arises from `s` by inserting, at arbitrary positions,
characters that do not occur in `charset` (claim C8's notion of
"inserting unknown characters"). -/
inductive Insertion (charset : List Char) : List Char → List Char → Prop
  | nil : Insertion charset [] []
  | keep (c : Char) {s s' : List Char} :
      Insertion charset s s' → Insertion charset (c :: s) (c :: s')
  | extra (c : Char) {s s' : List Char} :
      c ∉ charset → Insertion charset s s' → Insertion charset s (c :: s')

/-- The hexadecimal instance the library builds as
`new BaseConverter(16, 1, 2)` (`this.hexlify` of LEB128). -/
def hexConverter : BaseConverter := BaseConverter.make 16 (some 1) (some 2) 0

def hexCharset : List Char := "0123456789abcdef".toList

/-- A radix-64 converter with the block sizes `guessBS` derives,
`(bsEnc, bsDec) = (3, 4)`. -/
def c64 : BaseConverter := BaseConverter.make 64 none none 0

/-- `this.charsets.default = ["0", "1"]` of BasePhi. -/
def phiCharset : List Char := ['0', '1']

/-! ## Fuel elimination: the fueled loops do not depend on the fuel
once it dominates the iteration count, giving each loop its native
recurrence. -/

theorem digitsBEGo_congr (radix : Nat) :
    ∀ fuel1 fuel2 n : Nat, n ≤ fuel1 → n ≤ fuel2 →
      digitsBEGo radix fuel1 n = digitsBEGo radix fuel2 n := by
  intro fuel1
  induction fuel1 with
  | zero =>
    intro fuel2 n h1 h2
    have hn : n = 0 := by omega
    subst hn
    cases fuel2 with
    | zero => rfl
    | succ f =>
      simp only [digitsBEGo]
      rw [if_pos (by omega)]
  | succ f ih =>
    intro fuel2 n h1 h2
    cases fuel2 with
    | zero =>
      have hn : n = 0 := by omega
      subst hn
      simp only [digitsBEGo]
      rw [if_pos (by omega)]
    | succ g =>
      simp only [digitsBEGo]
      by_cases hc : radix ≤ 1 ∨ n < radix
      · rw [if_pos hc, if_pos hc]
      · rw [if_neg hc, if_neg hc]
        push_neg at hc
        have hlt : n / radix < n := Nat.div_lt_self (by omega) (by omega)
        rw [ih g (n / radix) (by omega) (by omega)]

theorem digitsBE_unfold (radix n : Nat) :
    digitsBE radix n =
      if radix ≤ 1 ∨ n < radix then [n]
      else digitsBE radix (n / radix) ++ [n % radix] := by
  unfold digitsBE
  cases n with
  | zero =>
    simp only [digitsBEGo]
    rw [if_pos (by omega)]
  | succ m =>
    simp only [digitsBEGo]
    by_cases hc : radix ≤ 1 ∨ m + 1 < radix
    · rw [if_pos hc, if_pos hc]
    · rw [if_neg hc, if_neg hc]
      push_neg at hc
      have hlt : (m + 1) / radix < m + 1 := Nat.div_lt_self (by omega) (by omega)
      rw [digitsBEGo_congr radix m ((m + 1) / radix) ((m + 1) / radix) (by omega) (le_refl _)]

theorem chunksGo_congr (bs : Nat) :
    ∀ fuel1 fuel2 : Nat, ∀ l : List Nat, l.length ≤ fuel1 → l.length ≤ fuel2 →
      chunksGo bs fuel1 l = chunksGo bs fuel2 l := by
  intro fuel1
  induction fuel1 with
  | zero =>
    intro fuel2 l h1 h2
    have hn : l = [] := List.eq_nil_of_length_eq_zero (by omega)
    subst hn
    cases fuel2 with
    | zero => rfl
    | succ f =>
      simp [chunksGo]
  | succ f ih =>
    intro fuel2 l h1 h2
    cases fuel2 with
    | zero =>
      have hn : l = [] := List.eq_nil_of_length_eq_zero (by omega)
      subst hn
      simp [chunksGo]
    | succ g =>
      simp only [chunksGo]
      by_cases hc : bs = 0 ∨ l = []
      · rw [if_pos hc, if_pos hc]
      · rw [if_neg hc, if_neg hc]
        push_neg at hc
        have hl : l.length ≠ 0 := fun h0 => hc.2 (List.eq_nil_of_length_eq_zero h0)
        have hd : (l.drop bs).length ≤ l.length - 1 := by
          simp only [List.length_drop]
          omega
        rw [ih g (l.drop bs) (by omega) (by omega)]

theorem chunks_unfold (bs : Nat) (l : List Nat) :
    chunks bs l =
      if bs = 0 ∨ l = [] then [] else l.take bs :: chunks bs (l.drop bs) := by
  unfold chunks
  cases l with
  | nil =>
    simp [chunksGo]
  | cons a t =>
    simp only [chunksGo, List.length_cons]
    by_cases hc : bs = 0 ∨ a :: t = []
    · rw [if_pos hc, if_pos hc]
    · rw [if_neg hc, if_neg hc]
      push_neg at hc
      have hd : ((a :: t).drop bs).length ≤ t.length := by
        simp only [List.length_drop, List.length_cons]
        omega
      rw [chunksGo_congr bs t.length ((a :: t).drop bs).length ((a :: t).drop bs) hd (le_refl _)]

theorem lebLoopUGo_congr :
    ∀ fuel1 fuel2 n : Nat, n ≤ fuel1 → n ≤ fuel2 →
      lebLoopUGo fuel1 n = lebLoopUGo fuel2 n := by
  intro fuel1
  induction fuel1 with
  | zero =>
    intro fuel2 n h1 h2
    have hn : n = 0 := by omega
    subst hn
    cases fuel2 with
    | zero => rfl
    | succ f =>
      simp [lebLoopUGo]
  | succ f ih =>
    intro fuel2 n h1 h2
    cases fuel2 with
    | zero =>
      have hn : n = 0 := by omega
      subst hn
      simp [lebLoopUGo]
    | succ g =>
      simp only [lebLoopUGo]
      by_cases hc : n / 128 = 0
      · rw [if_pos hc, if_pos hc]
      · rw [if_neg hc, if_neg hc]
        have hlt : n / 128 < n := Nat.div_lt_self (by omega) (by omega)
        rw [ih g (n / 128) (by omega) (by omega)]

theorem lebLoopU_unfold (n : Nat) :
    lebLoopU n =
      if n / 128 = 0 then [n % 128] else (n % 128 ||| 128) :: lebLoopU (n / 128) := by
  unfold lebLoopU
  cases n with
  | zero =>
    simp [lebLoopUGo]
  | succ m =>
    simp only [lebLoopUGo]
    by_cases hc : (m + 1) / 128 = 0
    · rw [if_pos hc, if_pos hc]
    · rw [if_neg hc, if_neg hc]
      have hlt : (m + 1) / 128 < m + 1 := Nat.div_lt_self (by omega) (by omega)
      rw [lebLoopUGo_congr m ((m + 1) / 128) ((m + 1) / 128) (by omega) (le_refl _)]

theorem lebStep_bound (n : Int)
    (h : ¬ ((n.ediv 128 = 0 ∧ (n.emod 128).toNat &&& 64 = 0) ∨
            (n.ediv 128 = -1 ∧ ¬ (n.emod 128).toNat &&& 64 = 0))) :
    (n.ediv 128).natAbs < n.natAbs := by
  push_neg at h
  obtain ⟨h0, h1⟩ := h
  have hd : 128 * (n.ediv 128) + n.emod 128 = n := Int.ediv_add_emod n 128
  have hr0 : 0 ≤ n.emod 128 := Int.emod_nonneg n (by decide)
  have hr1 : n.emod 128 < 128 := Int.emod_lt_of_pos n (by decide)
  have hbit : ∀ b : Nat, b < 128 → (b &&& 64 = 0 ↔ b < 64) := by decide
  have hb := hbit (n.emod 128).toNat (by omega)
  by_cases hA : (n.emod 128).toNat &&& 64 = 0
  · have h64 : (n.emod 128).toNat < 64 := hb.mp hA
    have hq0 : n.ediv 128 ≠ 0 := fun he => h0 he hA
    omega
  · have h64 : ¬ (n.emod 128).toNat < 64 := fun hl => hA (hb.mpr hl)
    have hq1 : n.ediv 128 ≠ -1 := fun he => hA (h1 he)
    omega

theorem lebZero_stop :
    ((0 : Int).ediv 128 = 0 ∧ ((0 : Int).emod 128).toNat &&& 64 = 0) ∨
      ((0 : Int).ediv 128 = -1 ∧ ¬ ((0 : Int).emod 128).toNat &&& 64 = 0) := by
  decide

theorem lebLoopSGo_congr :
    ∀ fuel1 fuel2 : Nat, ∀ n : Int, n.natAbs ≤ fuel1 → n.natAbs ≤ fuel2 →
      lebLoopSGo fuel1 n = lebLoopSGo fuel2 n := by
  intro fuel1
  induction fuel1 with
  | zero =>
    intro fuel2 n h1 h2
    have hn : n = 0 := by omega
    subst hn
    cases fuel2 with
    | zero => rfl
    | succ f =>
      simp only [lebLoopSGo]
      rw [if_pos lebZero_stop]
  | succ f ih =>
    intro fuel2 n h1 h2
    cases fuel2 with
    | zero =>
      have hn : n = 0 := by omega
      subst hn
      simp only [lebLoopSGo]
      rw [if_pos lebZero_stop]
    | succ g =>
      simp only [lebLoopSGo]
      by_cases hc : (n.ediv 128 = 0 ∧ (n.emod 128).toNat &&& 64 = 0) ∨
          (n.ediv 128 = -1 ∧ ¬ (n.emod 128).toNat &&& 64 = 0)
      · rw [if_pos hc, if_pos hc]
      · rw [if_neg hc, if_neg hc]
        have hlt := lebStep_bound n hc
        rw [ih g (n.ediv 128) (by omega) (by omega)]

theorem lebLoopS_unfold (n : Int) :
    lebLoopS n =
      if (n.ediv 128 = 0 ∧ (n.emod 128).toNat &&& 64 = 0) ∨
         (n.ediv 128 = -1 ∧ ¬ (n.emod 128).toNat &&& 64 = 0)
      then [(n.emod 128).toNat]
      else ((n.emod 128).toNat ||| 128) :: lebLoopS (n.ediv 128) := by
  unfold lebLoopS
  by_cases hz : n.natAbs = 0
  · have hn : n = 0 := by omega
    subst hn
    simp only [hz, lebLoopSGo]
    rw [if_pos lebZero_stop]
  · obtain ⟨m, hm⟩ : ∃ m, n.natAbs = m + 1 := ⟨n.natAbs - 1, by omega⟩
    rw [hm]
    simp only [lebLoopSGo]
    by_cases hc : (n.ediv 128 = 0 ∧ (n.emod 128).toNat &&& 64 = 0) ∨
        (n.ediv 128 = -1 ∧ ¬ (n.emod 128).toNat &&& 64 = 0)
    · rw [if_pos hc, if_pos hc]
    · rw [if_neg hc, if_neg hc]
      have hlt := lebStep_bound n hc
      rw [lebLoopSGo_congr m (n.ediv 128).natAbs (n.ediv 128) (by omega) (le_refl _)]

/-! ## Digit arithmetic lemmas -/

theorem digitsBE_ne_nil (r n : Nat) : digitsBE r n ≠ [] := by
  rw [digitsBE_unfold]
  split
  · simp
  · simp

theorem digitsBE_mem_lt (r : Nat) (hr : 2 ≤ r) :
    ∀ n, ∀ d ∈ digitsBE r n, d < r := by
  intro n
  induction n using Nat.strong_induction_on with
  | _ n ih =>
    rw [digitsBE_unfold]
    split
    · rename_i h
      rcases h with h | h
      · omega
      · intro d hd
        simp at hd
        omega
    · rename_i h
      push_neg at h
      intro d hd
      rcases List.mem_append.mp hd with hd | hd
      · exact ih (n / r) (Nat.div_lt_self (by omega) (by omega)) d hd
      · simp at hd
        subst hd
        exact Nat.mod_lt n (by omega)

theorem hornerPos_from (r a : Nat) (ds : List Nat) :
    ds.foldl (fun n d => n * r + d) a = a * r ^ ds.length + hornerPos r ds := by
  induction ds generalizing a with
  | nil => simp [hornerPos]
  | cons d ds ih =>
    show List.foldl (fun n d => n * r + d) (a * r + d) ds = _
    rw [ih (a * r + d)]
    have h2 : hornerPos r (d :: ds) = d * r ^ ds.length + hornerPos r ds := by
      show List.foldl (fun n d => n * r + d) (0 * r + d) ds = _
      rw [ih (0 * r + d)]
      ring
    rw [h2]
    simp only [List.length_cons, pow_succ]
    ring

theorem hornerPos_cons (r d : Nat) (ds : List Nat) :
    hornerPos r (d :: ds) = d * r ^ ds.length + hornerPos r ds := by
  simp only [hornerPos, List.foldl_cons]
  simpa using hornerPos_from r d ds

theorem hornerPos_append (r : Nat) (xs ys : List Nat) :
    hornerPos r (xs ++ ys) = hornerPos r xs * r ^ ys.length + hornerPos r ys := by
  simp only [hornerPos, List.foldl_append]
  exact hornerPos_from r (hornerPos r xs) ys

theorem hornerPos_replicate_zero (r p : Nat) :
    hornerPos r (List.replicate p 0) = 0 := by
  induction p with
  | zero => rfl
  | succ p ih =>
    rw [List.replicate_succ, hornerPos_cons, ih]
    simp

theorem hornerPos_digitsBE (r : Nat) (hr : 2 ≤ r) :
    ∀ n, hornerPos r (digitsBE r n) = n := by
  intro n
  induction n using Nat.strong_induction_on with
  | _ n ih =>
    rw [digitsBE_unfold]
    split
    · rename_i h
      simp [hornerPos]
    · rename_i h
      push_neg at h
      rw [hornerPos_append, ih (n / r) (Nat.div_lt_self (by omega) (by omega))]
      have h1 : hornerPos r [n % r] = n % r := by simp [hornerPos]
      simp only [List.length_singleton, pow_one, h1]
      rw [Nat.mul_comm]
      exact Nat.div_add_mod n r

theorem digitsBE_length_le (r : Nat) (hr : 2 ≤ r) :
    ∀ n k, 0 < k → n < r ^ k → (digitsBE r n).length ≤ k := by
  intro n
  induction n using Nat.strong_induction_on with
  | _ n ih =>
    intro k hk hn
    rw [digitsBE_unfold]
    split
    · simp
      omega
    · rename_i h
      push_neg at h
      have hk2 : 2 ≤ k := by
        by_contra hc
        have hk1 : k = 1 := by omega
        subst hk1
        simp at hn
        omega
      have hpow : r * r ^ (k - 1) = r ^ k := by
        rw [← pow_succ']
        congr 1
        omega
      have hdiv : n / r < r ^ (k - 1) :=
        Nat.div_lt_of_lt_mul (by rw [hpow]; exact hn)
      have := ih (n / r) (Nat.div_lt_self (by omega) (by omega)) (k - 1) (by omega) hdiv
      simp
      omega

theorem hornerPos_lt (r : Nat) (ds : List Nat) (h : ∀ d ∈ ds, d < r) :
    hornerPos r ds < r ^ ds.length := by
  induction ds with
  | nil => simp [hornerPos]
  | cons d ds ih =>
    rw [hornerPos_cons]
    have hd : d < r := h d (by simp)
    have hih : hornerPos r ds < r ^ ds.length := ih (fun x hx => h x (by simp [hx]))
    have h1 : d * r ^ ds.length + hornerPos r ds < (d + 1) * r ^ ds.length := by nlinarith
    have h2 : (d + 1) * r ^ ds.length ≤ r * r ^ ds.length :=
      Nat.mul_le_mul_right _ (by omega)
    calc d * r ^ ds.length + hornerPos r ds < (d + 1) * r ^ ds.length := h1
      _ ≤ r * r ^ ds.length := h2
      _ = r ^ (d :: ds).length := by
          simp only [List.length_cons, pow_succ]
          ring

theorem hornerPos_fixed_inj (r : Nat) :
    ∀ ds1 ds2 : List Nat, ds1.length = ds2.length →
    (∀ d ∈ ds1, d < r) → (∀ d ∈ ds2, d < r) →
    hornerPos r ds1 = hornerPos r ds2 → ds1 = ds2 := by
  intro ds1
  induction ds1 with
  | nil =>
    intro ds2 hlen _ _ _
    exact (List.length_eq_zero.mp hlen.symm).symm
  | cons d t ih =>
    intro ds2 hlen h1 h2 hv
    match ds2 with
    | [] => simp at hlen
    | e :: t2 =>
      simp at hlen
      rw [hornerPos_cons, hornerPos_cons] at hv
      have hlt1 : hornerPos r t < r ^ t.length := hornerPos_lt r t (fun x hx => h1 x (by simp [hx]))
      have hlt2 : hornerPos r t2 < r ^ t2.length := hornerPos_lt r t2 (fun x hx => h2 x (by simp [hx]))
      rw [hlen] at hv hlt1
      have hde : d = e := by
        by_contra hne
        rcases Nat.lt_or_ge d e with hlt | hge
        · nlinarith [hv, hlt1, hlt2]
        · have : e < d := by omega
          nlinarith [hv, hlt1, hlt2]
      subst hde
      have ht : hornerPos r t = hornerPos r t2 := by omega
      rw [ih t2 hlen (fun x hx => h1 x (by simp [hx])) (fun x hx => h2 x (by simp [hx])) ht]

/-! ## Chunk and charset lemmas -/

theorem chunks_nil (bs : Nat) : chunks bs [] = [] := rfl

theorem chunks_append (bs : Nat) (xs rest : List Nat) (hbs : 0 < bs)
    (hlen : xs.length = bs) : chunks bs (xs ++ rest) = xs :: chunks bs rest := by
  rw [chunks_unfold]
  have hne : xs ++ rest ≠ [] := by
    intro h
    rcases List.append_eq_nil.mp h with ⟨h1, _⟩
    subst h1
    simp at hlen
    omega
  rw [if_neg (by push_neg; exact ⟨by omega, hne⟩)]
  subst hlen
  rw [List.take_left, List.drop_left]

theorem getD_mem_of_lt (l : List Char) (d : Nat) (hd : d < l.length) :
    l.getD d ' ' ∈ l := by
  rw [List.getD_eq_getElem l ' ' hd]
  exact List.getElem_mem hd

theorem indexOf_getD_of_nodup (l : List Char) (d : Nat) (hnd : l.Nodup)
    (hd : d < l.length) : l.indexOf (l.getD d ' ') = d := by
  induction l generalizing d with
  | nil => simp at hd
  | cons x xs ih =>
    match d with
    | 0 => simp [List.indexOf_cons_self]
    | d + 1 =>
      simp only [List.length_cons] at hd
      have hdd : d < xs.length := by omega
      have hgd : (x :: xs).getD (d + 1) ' ' = xs.getD d ' ' := by
        simp [List.getD]
      rw [hgd]
      have hy : xs.getD d ' ' ∈ xs := getD_mem_of_lt xs d hdd
      have hxy : x ≠ xs.getD d ' ' := by
        intro he
        exact (List.nodup_cons.mp hnd).1 (he ▸ hy)
      rw [List.indexOf_cons_ne xs hxy, ih d (List.nodup_cons.mp hnd).2 hdd]

theorem charsetDigits_append (cs a b : List Char) :
    charsetDigits cs (a ++ b) = charsetDigits cs a ++ charsetDigits cs b := by
  simp [charsetDigits, List.filterMap_append]

theorem charsetDigits_map_getD (cs : List Char) (hnd : cs.Nodup) (ds : List Nat)
    (h : ∀ d ∈ ds, d < cs.length) :
    charsetDigits cs (ds.map (fun d => cs.getD d ' ')) = ds := by
  induction ds with
  | nil => rfl
  | cons d ds ih =>
    have hd : d < cs.length := h d (by simp)
    simp only [List.map_cons, charsetDigits, List.filterMap_cons]
    rw [if_pos (getD_mem_of_lt cs d hd)]
    rw [indexOf_getD_of_nodup cs d hnd hd]
    have := ih (fun x hx => h x (by simp [hx]))
    simp only [charsetDigits] at this
    rw [this]

/-! ## Decoder structure lemmas -/

theorem decodeFromDigits_nil (c : BaseConverter) (le : Bool) :
    c.decodeFromDigits [] le = some [] := by
  by_cases h : c.bsDec = 0 <;>
    cases le <;>
      simp [BaseConverter.decodeFromDigits, chunks_nil, h, BaseConverter.padChars,
        Nat.mod_self, Nat.div_eq_of_lt, Nat.sub_lt]

theorem decode_eq_fromDigits (c : BaseConverter) (cs : List Char) (le : Bool)
    (s : List Char) :
    c.decode s cs le = c.decodeFromDigits (charsetDigits cs s) le := by
  unfold BaseConverter.decode
  split
  · rename_i h
    subst h
    rw [show charsetDigits cs [] = [] from rfl, decodeFromDigits_nil]
  · rfl

theorem insertion_charsetDigits {cs : List Char} {s s' : List Char}
    (h : Insertion cs s s') : charsetDigits cs s' = charsetDigits cs s := by
  induction h with
  | nil => rfl
  | keep c h ih =>
    by_cases hc : c ∈ cs <;>
      simp only [charsetDigits, List.filterMap_cons, hc, if_pos, if_neg,
        reduceCtorEq] <;>
      simp only [charsetDigits] at ih <;>
      simp [hc, ih]
  | extra c hc h ih =>
    simp only [charsetDigits, List.filterMap_cons, if_neg hc]
    simpa [charsetDigits] using ih

/-! ## Claim C8 -/

/-- C8: characters absent from the charset are silently skipped and
exactly those characters are ignored — for every digit string `s` and
every `s'` obtained from `s` by inserting characters that do not occur
in the charset, `BaseConverter.decode` returns the same result on
both, for every converter and endianness. -/
theorem c8_unknown_chars_skipped (c : BaseConverter) (cs : List Char) (le : Bool)
    (s s' : List Char) (h : Insertion cs s s') :
    c.decode s' cs le = c.decode s cs le := by
  rw [decode_eq_fromDigits, decode_eq_fromDigits, insertion_charsetDigits h]

/-- Witness for C8: inserting `-` (not a hex character) into `"ff"`
leaves hex decoding unchanged. -/
theorem c8_witness :
    hexConverter.decode ['f', '-', 'f'] hexCharset false
      = hexConverter.decode ['f', 'f'] hexCharset false :=
  c8_unknown_chars_skipped hexConverter hexCharset false ['f', 'f'] ['f', '-', 'f']
    (Insertion.keep 'f' (Insertion.extra '-' (by decide) (Insertion.keep 'f' Insertion.nil)))

/-! ## Claim C3 -/

/-- C3 counterexample: `guessBS(10)` does not yield the unblocked
sentinel `bytesPerBlock = 0`; it computes the pair `(11, 27)`. -/
theorem c3_counterexample : ¬ ((BaseConverter.guessBS 10).1 = 0) := by decide

/-- C3 amended: `guessBS` returns `(1, 2)` for radix 16 and `(1, 8)`
for radix 2; for radix 10 it returns `(11, 27)`.  The unblocked
sentinel `bytesPerBlock = 0` used by the radix-10 converters comes
from passing the explicit block sizes `(0, 0)` to the constructor
(`new BaseConverter(10, 0, 0)`), not from `guessBS`. -/
theorem c3_amended :
    BaseConverter.guessBS 16 = (1, 2) ∧ BaseConverter.guessBS 2 = (1, 8) ∧
    BaseConverter.guessBS 10 = (11, 27) ∧
    (BaseConverter.make 10 (some 0) (some 0) 0).bsEnc = 0 := by decide

/-! ## Claim C4 -/

/-- C4 counterexample: with the little-endian flag, `encode` reverses
the caller's byte array in place (`inputBytes.reverse()`): after
encoding `[0, 1]` the array holds `[1, 0]`. -/
theorem c4_counterexample :
    ¬ ((hexConverter.encodeFull [0, 1] hexCharset true).2 = [0, 1]) := by decide

/-- C4 amended: `BaseConverter.encode` leaves the input byte sequence
unchanged when `littleEndian` is false; when `littleEndian` is true it
reverses the caller's array in place (the class-level wrapper passes a
defensive copy, so library users do not observe the mutation). -/
theorem c4_amended (c : BaseConverter) (inputBytes : List Nat) (charset : List Char) :
    (c.encodeFull inputBytes charset false).2 = inputBytes ∧
    (c.encodeFull inputBytes charset true).2 = inputBytes.reverse := by
  constructor <;>
    by_cases hr : c.radix = 10 <;>
      simp [BaseConverter.encodeFull, hr]

/-! ## Claim C7 -/

/-- C7: LEB128 encoding reports an error (and yields no byte sequence)
exactly when the input value is negative and signed mode is disabled. -/
theorem c7_negative_unsigned_error (value : Int) (signed : Bool) :
    (∃ msg, LEB128.encode value signed = .error msg) ↔ value < 0 ∧ signed = false := by
  by_cases h : value < 0 ∧ signed = false
  · simp only [LEB128.encode, if_pos h]
    exact ⟨fun _ => h, fun _ => ⟨_, rfl⟩⟩
  · simp only [LEB128.encode, if_neg h]
    constructor
    · rintro ⟨msg, hmsg⟩
      split at hmsg <;> simp at hmsg
    · intro hc
      exact absurd hc h

/-! ## Claim C2 -/

/-- C2 counterexample: for the radix-64 converter (`bsEnc = 3`,
`bsDec = 4`), `padBytes 4` is `5` (the code computes
`⌊charCount · bsDec / bsEnc⌋`), not the claimed
`⌊charCount · bsEnc / bsDec⌋ = 3`: the claim swaps the two block
sizes in both formulas. -/
theorem c2_counterexample :
    ¬ (c64.padBytes 4 = ⌊(4 * c64.bsEnc : ℚ) / (c64.bsDec : ℚ)⌋₊) := by
  have hE : c64.bsEnc = 3 := by decide
  have hD : c64.bsDec = 4 := by decide
  have hP : c64.padBytes 4 = 5 := by decide
  rw [hE, hD, hP]
  intro h
  rw [show ((4 : ℚ) * (3 : ℕ)) / ((4 : ℕ) : ℚ) = ((3 : ℕ) : ℚ) by push_cast; norm_num,
    Nat.floor_natCast] at h
  omega

/-- C2 amended: the ratio is the reverse of the claimed one —
`padBytes(charCount) = ⌊charCount · digitsPerBlock / bytesPerBlock⌋`
and `padChars(byteCount) = ⌈byteCount · bytesPerBlock /
digitsPerBlock⌉`, with `bytesPerBlock = bsEnc` and `digitsPerBlock =
bsDec`. -/
theorem c2_amended (c : BaseConverter) (charCount byteCount : Nat)
    (hE : 0 < c.bsEnc) (hD : 0 < c.bsDec) :
    c.padBytes charCount = ⌊(charCount * c.bsDec : ℚ) / (c.bsEnc : ℚ)⌋₊ ∧
    c.padChars byteCount = ⌈(byteCount * c.bsEnc : ℚ) / (c.bsDec : ℚ)⌉₊ := by
  constructor
  · rw [BaseConverter.padBytes,
      show ((charCount : ℚ) * c.bsDec) = ((charCount * c.bsDec : ℕ) : ℚ) by push_cast; ring,
      Nat.floor_div_nat, Nat.floor_natCast]
  · rw [BaseConverter.padChars,
      show ((byteCount : ℚ) * c.bsEnc) = ((byteCount * c.bsEnc : ℕ) : ℚ) by push_cast; ring]
    generalize byteCount * c.bsEnc = a
    have hq : (0 : ℚ) < (c.bsDec : ℚ) := by exact_mod_cast hD
    by_cases h0 : a = 0
    · subst h0
      rw [Nat.cast_zero, zero_div, Nat.ceil_zero]
      exact Nat.div_eq_of_lt (by omega)
    · obtain ⟨m, hm⟩ : ∃ m, (a + c.bsDec - 1) / c.bsDec = m + 1 :=
        ⟨(a + c.bsDec - 1) / c.bsDec - 1, by
          have h1 : 1 ≤ (a + c.bsDec - 1) / c.bsDec :=
            (Nat.one_le_div_iff hD).mpr (by omega)
          omega⟩
      have hdm := Nat.div_add_mod (a + c.bsDec - 1) c.bsDec
      rw [hm] at hdm
      have hmod : (a + c.bsDec - 1) % c.bsDec < c.bsDec := Nat.mod_lt _ hD
      have hdm2 : c.bsDec * (m + 1) + (a + c.bsDec - 1) % c.bsDec + 1 = a + c.bsDec := by
        rw [hdm]
        omega
      generalize hR : (a + c.bsDec - 1) % c.bsDec = R at hdm2 hmod
      have key1 : a ≤ (m + 1) * c.bsDec := by nlinarith [hdm2, hmod]
      have key2 : m * c.bsDec < a := by nlinarith [hdm2, hmod]
      rw [hm]
      symm
      rw [Nat.ceil_eq_iff (by omega)]
      constructor
      · simp only [Nat.add_sub_cancel]
        rw [lt_div_iff hq]
        exact_mod_cast key2
      · rw [div_le_iff hq]
        exact_mod_cast key1

/-- Witness for C2 amended at the radix-64 converter. -/
theorem c2_witness :
    c64.padBytes 4 = ⌊(4 * c64.bsDec : ℚ) / (c64.bsEnc : ℚ)⌋₊ ∧
    c64.padChars 4 = ⌈(4 * c64.bsEnc : ℚ) / (c64.bsDec : ℚ)⌉₊ :=
  c2_amended c64 4 4 (by decide) (by decide)

/-! ## LEB128 lemmas -/

theorem and127_lt (b : Nat) : b &&& 127 < 128 :=
  Nat.lt_succ_of_le (Nat.and_le_right)

theorem and127_eq (b : Nat) (h : b < 128) : b &&& 127 = b := by
  have : ∀ x, x < 128 → x &&& 127 = x := by decide
  exact this b h

theorem or128_and127 (b : Nat) (h : b < 128) : (b ||| 128) &&& 127 = b := by
  have : ∀ x, x < 128 → (x ||| 128) &&& 127 = x := by decide
  exact this b h

theorem or128_bounds (b : Nat) (h : b < 128) : 128 ≤ (b ||| 128) ∧ (b ||| 128) < 256 := by
  have : ∀ x, x < 128 → 128 ≤ (x ||| 128) ∧ (x ||| 128) < 256 := by decide
  exact this b h

theorem sumLE_lt (bs : List Nat) : sumLE bs < 128 ^ bs.length := by
  induction bs with
  | nil => simp [sumLE]
  | cons b rest ih =>
    simp only [sumLE, List.length_cons]
    have h1 : b &&& 127 < 128 := and127_lt b
    have h2 : 128 ^ (rest.length + 1) = 128 * 128 ^ rest.length := by
      rw [pow_succ]
      ring
    rw [h2]
    omega

theorem lebDecodeFold_eq (input : List Nat) :
    ∀ (acc : Int) (sh : Nat),
      input.foldl (fun p b => (p.1 + ((b &&& 127 : Nat) : Int) * 2 ^ p.2, p.2 + 7)) (acc, sh)
        = (acc + 2 ^ sh * (sumLE input : Int), sh + 7 * input.length) := by
  induction input with
  | nil =>
    intro acc sh
    simp [sumLE]
  | cons b rest ih =>
    intro acc sh
    simp only [List.foldl_cons]
    rw [ih]
    simp only [sumLE, List.length_cons, Prod.mk.injEq]
    constructor
    · have hp : (2 : Int) ^ (sh + 7) = 2 ^ sh * 128 := by
        rw [pow_add]
        norm_num
      rw [hp]
      push_cast
      ring
    · ring

theorem decodeCore_eq (input : List Nat) (signed : Bool) :
    LEB128.decodeCore input signed =
      if input = [0] then 0
      else if signed ∧ (input.getLastD 0) &&& 64 ≠ 0 then
        Int.lor (sumLE input) (-(2 ^ (7 * input.length)))
      else (sumLE input : Int) := by
  unfold LEB128.decodeCore lebDecodeFold
  rw [lebDecodeFold_eq input 0 0]
  norm_num

theorem ldiff_two_pow_sub_one (m : Nat) :
    ∀ s, s < 2 ^ m → Nat.ldiff (2 ^ m - 1) s = 2 ^ m - 1 - s := by
  induction m with
  | zero =>
    intro s hs
    have h0 : s = 0 := by omega
    subst h0
    apply Nat.eq_of_testBit_eq
    intro i
    rw [Nat.testBit_ldiff]
    simp
  | succ m ih =>
    intro s hs
    have hpos : 0 < 2 ^ m := Nat.pos_pow_of_pos m (by omega)
    have hp : 2 ^ (m + 1) = 2 * 2 ^ m := by
      rw [pow_succ]
      ring
    have hbit1 : 2 ^ (m + 1) - 1 = Nat.bit true (2 ^ m - 1) := by
      rw [Nat.bit_val]
      simp only [Bool.toNat_true]
      omega
    have hbit2 : s = Nat.bit (decide (s % 2 = 1)) (s / 2) := by
      rw [Nat.bit_val]
      rcases Nat.mod_two_eq_zero_or_one s with h | h <;> simp [h] <;> omega
    rw [hbit1, hbit2, Nat.ldiff_bit]
    have hs2 : s / 2 < 2 ^ m := by omega
    rw [ih (s / 2) hs2, Nat.bit_val]
    rcases Nat.mod_two_eq_zero_or_one s with h | h <;> simp [h] <;> omega

theorem int_lor_neg_pow (s m : Nat) (h : s < 2 ^ m) :
    Int.lor (s : Int) (-(2 ^ m : Int)) = (s : Int) - 2 ^ m := by
  have hpos : 1 ≤ 2 ^ m := Nat.one_le_two_pow
  have hcast : ((2 : Int) ^ m) = ((2 ^ m : Nat) : Int) := by push_cast; ring
  have hneg : (-(2 ^ m : Int)) = Int.negSucc (2 ^ m - 1) := by
    rw [Int.negSucc_eq, hcast]
    omega
  rw [hneg]
  have hred : Int.lor (s : Int) (Int.negSucc (2 ^ m - 1))
      = Int.negSucc (Nat.ldiff (2 ^ m - 1) s) := rfl
  rw [hred, ldiff_two_pow_sub_one m s h, Int.negSucc_eq, hcast]
  omega

theorem getLastD_irrel (l : List Nat) (h : l ≠ []) (d1 d2 : Nat) :
    l.getLastD d1 = l.getLastD d2 := by
  obtain ⟨a, ha⟩ := Option.isSome_iff_exists.mp (List.getLast?_isSome.mpr h)
  simp [List.getLastD_eq_getLast?, ha]

theorem getLastD_cons_ne_nil (b d : Nat) (l : List Nat) (h : l ≠ []) :
    (b :: l).getLastD d = l.getLastD d := by
  cases l with
  | nil => exact absurd rfl h
  | cons x xs =>
    simp only [List.getLastD_eq_getLast?, List.getLast?_cons_cons]

/-- The unsigned emission loop is continuation-terminated and its
decode-recurrence value is the encoded number; its length is the base
128 digit count of `n`. -/
theorem lebLoopU_spec (n : Nat) :
    lebLoopU n ≠ [] ∧ ContinuationTerminated (lebLoopU n) ∧
    sumLE (lebLoopU n) = n ∧ n < 128 ^ (lebLoopU n).length ∧
    (1 < (lebLoopU n).length → 128 ^ ((lebLoopU n).length - 1) ≤ n) := by
  induction n using Nat.strong_induction_on with
  | _ n ih =>
    rw [lebLoopU_unfold]
    by_cases hc : n / 128 = 0
    · rw [if_pos hc]
      have hn : n < 128 := by omega
      have hmod : n % 128 = n := Nat.mod_eq_of_lt hn
      refine ⟨by simp, ⟨by simp, by simp, ?_⟩, ?_, ?_, ?_⟩
      · simpa [hmod] using hn
      · simp only [sumLE, hmod, Nat.mul_zero, Nat.add_zero]
        rw [and127_eq n hn]
      · simpa using hn
      · simp
    · rw [if_neg hc]
      have hlt : n / 128 < n := Nat.div_lt_self (by omega) (by omega)
      obtain ⟨hne, ⟨_, hdl, hlast⟩, hsum, hub, hlb⟩ := ih (n / 128) hlt
      have hmlt : n % 128 < 128 := Nat.mod_lt _ (by omega)
      refine ⟨by simp, ⟨by simp, ?_, ?_⟩, ?_, ?_, ?_⟩
      · rw [List.dropLast_cons_of_ne_nil hne]
        intro b hb
        rcases List.mem_cons.mp hb with hb | hb
        · subst hb
          exact or128_bounds _ hmlt
        · exact hdl b hb
      · rw [getLastD_cons_ne_nil _ _ _ hne]
        exact hlast
      · simp only [sumLE]
        rw [or128_and127 _ hmlt, hsum]
        omega
      · simp only [List.length_cons]
        have hp : 128 ^ ((lebLoopU (n / 128)).length + 1)
            = 128 * 128 ^ (lebLoopU (n / 128)).length := by
          rw [pow_succ]
          ring
        rw [hp]
        omega
      · intro _
        simp only [List.length_cons, Nat.add_sub_cancel]
        have hlen1 : 1 ≤ (lebLoopU (n / 128)).length := by
          cases h : lebLoopU (n / 128) with
          | nil => exact absurd h hne
          | cons a t => simp
        by_cases h1 : 1 < (lebLoopU (n / 128)).length
        · have := hlb h1
          have hp : 128 ^ (lebLoopU (n / 128)).length
              = 128 * 128 ^ ((lebLoopU (n / 128)).length - 1) := by
            rw [← pow_succ']
            congr 1
            omega
          rw [hp] at *
          omega
        · have hlen : (lebLoopU (n / 128)).length = 1 := by omega
          rw [hlen, pow_one]
          omega

set_option maxRecDepth 4000 in
theorem byte_recons_cont (b : Nat) (h1 : 128 ≤ b) (h2 : b < 256) :
    b = (b &&& 127) + 128 := by
  have : ∀ x, x < 256 → 128 ≤ x → x = (x &&& 127) + 128 := by decide
  exact this b h2 h1

theorem contTerm_tail (b : Nat) (r : List Nat)
    (h : ContinuationTerminated (b :: r)) (hr : r ≠ []) :
    ContinuationTerminated r := by
  obtain ⟨_, hdl, hlast⟩ := h
  refine ⟨hr, ?_, ?_⟩
  · intro x hx
    apply hdl
    rw [List.dropLast_cons_of_ne_nil hr]
    exact List.mem_cons_of_mem _ hx
  · rw [getLastD_cons_ne_nil _ _ _ hr] at hlast
    exact hlast

theorem contTerm_head (b : Nat) (r : List Nat)
    (h : ContinuationTerminated (b :: r)) (hr : r ≠ []) :
    128 ≤ b ∧ b < 256 := by
  obtain ⟨_, hdl, _⟩ := h
  apply hdl
  rw [List.dropLast_cons_of_ne_nil hr]
  exact List.mem_cons_self _ _

/-- Two continuation-terminated sequences of the same length with
equal decode-recurrence values are equal. -/
theorem contTerm_sumLE_inj :
    ∀ bs1 bs2 : List Nat, ContinuationTerminated bs1 → ContinuationTerminated bs2 →
      bs1.length = bs2.length → sumLE bs1 = sumLE bs2 → bs1 = bs2 := by
  intro bs1
  induction bs1 with
  | nil =>
    intro bs2 h1 _ _ _
    exact absurd rfl h1.1
  | cons b r ih =>
    intro bs2 h1 h2 hlen hsum
    match bs2 with
    | [] => exact absurd rfl h2.1
    | b' :: r' =>
      simp only [List.length_cons, Nat.add_right_cancel_iff] at hlen
      simp only [sumLE] at hsum
      have hb1 : b &&& 127 < 128 := and127_lt b
      have hb2 : b' &&& 127 < 128 := and127_lt b'
      have handEq : b &&& 127 = b' &&& 127 := by omega
      have htails : sumLE r = sumLE r' := by omega
      by_cases hr : r = []
      · have hr' : r' = [] := by
          rw [hr] at hlen
          exact List.length_eq_zero.mp hlen.symm
        subst hr
        subst hr'
        have hlt1 : b < 128 := by simpa using h1.2.2
        have hlt2 : b' < 128 := by simpa using h2.2.2
        rw [and127_eq b hlt1, and127_eq b' hlt2] at handEq
        rw [handEq]
      · have hr' : r' ≠ [] := by
          intro he
          rw [he] at hlen
          exact hr (List.length_eq_zero.mp hlen)
        obtain ⟨hh1, hh1b⟩ := contTerm_head b r h1 hr
        obtain ⟨hh2, hh2b⟩ := contTerm_head b' r' h2 hr'
        have hbeq : b = b' := by
          rw [byte_recons_cont b hh1 hh1b, byte_recons_cont b' hh2 hh2b, handEq]
        rw [hbeq, ih r' (contTerm_tail b r h1 hr) (contTerm_tail b' r' h2 hr') hlen htails]

/-! ## Claim C5 -/

/-- C5: for every non-negative integer, unsigned `LEB128.encode`
produces a continuation-terminated byte sequence whose
decode-recurrence value is the input, and it is the unique shortest
such sequence; in particular `encode 0 = [0x00]`,
`encode 127 = [0x7F]`, `encode 128 = [0x80, 0x01]` and
`encode 300 = [0xAC, 0x02]`. -/
theorem c5_leb128_unsigned_minimal (n : Nat) :
    LEB128.encode (n : Int) false = .ok (lebLoopU n) ∧
    ValidUnsigned (lebLoopU n) n ∧
    (∀ bs, ValidUnsigned bs n →
      (lebLoopU n).length ≤ bs.length ∧
      (bs.length = (lebLoopU n).length → bs = lebLoopU n)) ∧
    LEB128.encode 0 false = .ok [0x00] ∧
    LEB128.encode 127 false = .ok [0x7F] ∧
    LEB128.encode 128 false = .ok [0x80, 0x01] ∧
    LEB128.encode 300 false = .ok [0xAC, 0x02] := by
  obtain ⟨hne, hct, hsum, hub, hlb⟩ := lebLoopU_spec n
  have hval : ∀ bs, ValidUnsigned bs n → sumLE bs = n := by
    intro bs hv
    obtain ⟨hct', hdc⟩ := hv
    rw [decodeCore_eq] at hdc
    by_cases h0 : bs = [0]
    · rw [if_pos h0] at hdc
      subst h0
      simp only [sumLE, Nat.zero_and, Nat.mul_zero, Nat.add_zero]
      exact_mod_cast hdc
    · rw [if_neg h0] at hdc
      simp only [Bool.false_eq_true, false_and, if_neg, ite_false] at hdc
      exact_mod_cast hdc
  refine ⟨?_, ⟨hct, ?_⟩, ?_, by rfl, by rfl, by rfl, by rfl⟩
  · simp [LEB128.encode]
  · rw [decodeCore_eq]
    by_cases h0 : lebLoopU n = [0]
    · rw [if_pos h0]
      rw [h0] at hsum
      simp only [sumLE, Nat.zero_and, Nat.mul_zero, Nat.add_zero] at hsum
      omega
    · rw [if_neg h0]
      simp only [Bool.false_eq_true, false_and, if_neg, ite_false]
      exact_mod_cast hsum
  · intro bs hv
    have hs := hval bs hv
    have hbslt : n < 128 ^ bs.length := hs ▸ sumLE_lt bs
    have hbsne : bs ≠ [] := hv.1.1
    have hbslen : 1 ≤ bs.length := by
      cases bs with
      | nil => exact absurd rfl hbsne
      | cons a t => simp
    constructor
    · by_cases hgt : 1 < (lebLoopU n).length
      · have h1 := hlb hgt
        have h2 : 128 ^ ((lebLoopU n).length - 1) < 128 ^ bs.length := by omega
        have := (Nat.pow_lt_pow_iff_right (by omega : 1 < 128)).mp h2
        omega
      · omega
    · intro hlen
      exact contTerm_sumLE_inj bs (lebLoopU n) hv.1 hct (by omega) (by omega)

/-- Witness for C5: at `n = 300`, the sequence `[0xAC, 0x02]` is a
valid unsigned encoding, so the minimality and uniqueness clauses
apply to it. -/
theorem c5_witness :
    (lebLoopU 300).length ≤ ([0xAC, 0x02] : List Nat).length ∧
    (([0xAC, 0x02] : List Nat).length = (lebLoopU 300).length →
      ([0xAC, 0x02] : List Nat) = lebLoopU 300) :=
  (c5_leb128_unsigned_minimal 300).2.2.1 [0xAC, 0x02] (by decide)

theorem getLastD_single (b d : Nat) : ([b] : List Nat).getLastD d = b := rfl

theorem lebLoopS_ne_nil (n : Int) : lebLoopS n ≠ [] := by
  rw [lebLoopS_unfold]
  split <;> simp

/-- The signed emission loop together with the decoder's
sign-extension rule reproduces the encoded value. -/
theorem lebLoopS_spec : ∀ (k : Nat) (n : Int), n.natAbs = k →
    (sumLE (lebLoopS n) : Int)
      - (if (lebLoopS n).getLastD 0 &&& 64 ≠ 0
         then (2 : Int) ^ (7 * (lebLoopS n).length) else 0)
      = n := by
  intro k
  induction k using Nat.strong_induction_on with
  | _ k ih =>
    intro n hk
    have hd : 128 * (n.ediv 128) + n.emod 128 = n := Int.ediv_add_emod n 128
    have hr0 : 0 ≤ n.emod 128 := Int.emod_nonneg n (by decide)
    have hr1 : n.emod 128 < 128 := Int.emod_lt_of_pos n (by decide)
    have hbyte : (n.emod 128).toNat < 128 := by omega
    rw [lebLoopS_unfold]
    by_cases hc : (n.ediv 128 = 0 ∧ (n.emod 128).toNat &&& 64 = 0) ∨
        (n.ediv 128 = -1 ∧ ¬ (n.emod 128).toNat &&& 64 = 0)
    · rw [if_pos hc]
      simp only [sumLE, Nat.mul_zero, Nat.add_zero, getLastD_single,
        List.length_singleton]
      rw [and127_eq _ hbyte]
      rcases hc with ⟨hq, hbit⟩ | ⟨hq, hbit⟩
      · rw [if_neg (by simpa using hbit)]
        omega
      · rw [if_pos hbit]
        have h2 : (2 : Int) ^ (7 * 1) = 128 := by norm_num
        rw [h2]
        omega
    · rw [if_neg hc]
      have hlt := lebStep_bound n hc
      have hih := ih (n.ediv 128).natAbs (by omega) (n.ediv 128) rfl
      have hne := lebLoopS_ne_nil (n.ediv 128)
      simp only [sumLE, List.length_cons]
      rw [or128_and127 _ hbyte, getLastD_cons_ne_nil _ _ _ hne]
      have hpow : (2 : Int) ^ (7 * ((lebLoopS (n.ediv 128)).length + 1))
          = 128 * 2 ^ (7 * (lebLoopS (n.ediv 128)).length) := by
        rw [show 7 * ((lebLoopS (n.ediv 128)).length + 1)
            = 7 * (lebLoopS (n.ediv 128)).length + 7 by ring, pow_add]
        norm_num
        ring
      rw [hpow]
      by_cases hbit : (lebLoopS (n.ediv 128)).getLastD 0 &&& 64 ≠ 0
      · rw [if_pos hbit]
        rw [if_pos hbit] at hih
        push_cast
        push_cast at hih
        omega
      · rw [if_neg hbit]
        rw [if_neg hbit] at hih
        push_cast
        push_cast at hih
        omega

/-! ## Claim C6 -/

/-- C6: signed LEB128 round-trip for every integer value `v`
(including negatives such as `-129`): encoding in signed mode
succeeds, and decoding the result with signed mode enabled returns
exactly `v`. -/
theorem c6_leb128_signed_roundtrip (v : Int) :
    ∃ bs, LEB128.encode v true = .ok bs ∧ LEB128.decodeCore bs true = v := by
  refine ⟨lebLoopS v, ?_, ?_⟩
  · simp [LEB128.encode]
  · have hspec := lebLoopS_spec v.natAbs v rfl
    rw [decodeCore_eq]
    by_cases h0 : lebLoopS v = [0]
    · rw [if_pos h0]
      rw [h0] at hspec
      simp only [sumLE, Nat.zero_and, Nat.mul_zero, Nat.add_zero,
        getLastD_single, List.length_singleton] at hspec
      rw [if_neg (by decide)] at hspec
      omega
    · rw [if_neg h0]
      have hlt : sumLE (lebLoopS v) < 2 ^ (7 * (lebLoopS v).length) := by
        have h := sumLE_lt (lebLoopS v)
        rwa [show (128 : Nat) = 2 ^ 7 from rfl, ← pow_mul] at h
      by_cases hbit : (lebLoopS v).getLastD 0 &&& 64 ≠ 0
      · rw [if_pos ⟨rfl, hbit⟩, int_lor_neg_pow _ _ hlt]
        rw [if_pos hbit] at hspec
        push_cast
        push_cast at hspec
        omega
      · rw [if_neg (fun h => hbit h.2)]
        rw [if_neg hbit] at hspec
        omega

/-! ## BasePhi lemmas -/

theorem mem_foldl_renderFracStep (cs : List Char) (ch : Char) :
    ∀ (l : List Int) (st : List Char × Int), ch ∈ st.1 →
      ch ∈ (l.foldl (renderFracStep cs) st).1 := by
  intro l
  induction l with
  | nil => intro st h; exact h
  | cons e t ih =>
    intro st h
    simp only [List.foldl_cons]
    exact ih _ (by simp [renderFracStep, h])

theorem dot_mem_render (cs : List Char) (ed : List Int × List Int) (ip : List Char) :
    '.' ∈ (ed.2.foldl (renderFracStep cs)
      ((if ip = [] then ['0', '.'] else ip ++ ['.']), (-1 : Int))).1 := by
  apply mem_foldl_renderFracStep
  split
  · simp
  · simp

/-! ## Claim C10 -/

/-- C10: with the default charset, every magnitude `n ≥ 2` (indeed
every magnitude other than exactly `0` and `1`) produces an output
containing the radix point `.`, appended unconditionally after the
integer-part digits; magnitudes exactly `0` and `1` produce an output
without a radix point. -/
theorem c10_radix_point (n : ℚ) (negative : Bool) :
    (2 ≤ n → '.' ∈ BasePhi.encode phiCharset n negative) ∧
    (¬ (n = 0 ∨ n = 1) → '.' ∈ BasePhi.encode phiCharset n negative) ∧
    ((n = 0 ∨ n = 1) → '.' ∉ BasePhi.encode phiCharset n negative) := by
  have hgen : ¬ (n = 0 ∨ n = 1) → '.' ∈ BasePhi.encode phiCharset n negative := by
    intro h
    simp only [BasePhi.encode, if_neg h]
    cases negative
    · simp only [Bool.false_eq_true, if_false]
      exact dot_mem_render phiCharset _ _
    · simp only [if_true]
      exact List.mem_cons_of_mem _ (dot_mem_render phiCharset _ _)
  have h01 : (n = 0 ∨ n = 1) → '.' ∉ BasePhi.encode phiCharset n negative := by
    intro h hmem
    rcases h with rfl | rfl <;> cases negative <;>
      simp [BasePhi.encode, phiCharset] at hmem
  refine ⟨fun h2 => hgen ?_, hgen, h01⟩
  rintro (rfl | rfl) <;> norm_num at h2

theorem c10_witness :
    '.' ∈ BasePhi.encode phiCharset 2 false ∧ '.' ∉ BasePhi.encode phiCharset 1 false :=
  ⟨(c10_radix_point 2 false).1 (by norm_num),
   (c10_radix_point 1 false).2.2 (Or.inr rfl)⟩

/-! ## Claim C9

The `Rat` arithmetic operations of the library are `@[irreducible]`
by default; the round-trip below is settled by evaluation, so they are
unsealed for it. -/

set_option maxRecDepth 10000 in
unseal Rat.mul Rat.inv Rat.add Rat.sub in
/-- C9: with the default charset `["0", "1"]`, `BasePhi.encode 0 = "0"`
and `BasePhi.encode 1 = "1"`, and for every `n < 13` (the bound the
claim cites, `n = 12`, included) decoding the encoding of `n` returns
exactly `n`. -/
theorem c9_basephi_roundtrip :
    BasePhi.encode phiCharset 0 false = ['0'] ∧
    BasePhi.encode phiCharset 1 false = ['1'] ∧
    ∀ n : Nat, n < 13 →
      (BasePhi.decodeInt phiCharset (BasePhi.encode phiCharset (n : ℚ) false)).toOption
        = some (n : Int) := by decide

theorem c9_witness :
    (BasePhi.decodeInt phiCharset
        (BasePhi.encode phiCharset ((12 : Nat) : ℚ) false)).toOption
      = some ((12 : Nat) : Int) :=
  c9_basephi_roundtrip.2.2 12 (by decide)

/-! ## Claim C1: block-level round trip -/

theorem blockValGo_eq_hornerPos (r bs : Nat) (block : List Nat) :
    ∀ j, j + block.length = bs → blockValGo r bs j block = hornerPos r block := by
  induction block with
  | nil => intro j h; simp [blockValGo, hornerPos]
  | cons d ds ih =>
    intro j h
    simp only [List.length_cons] at h
    simp only [blockValGo]
    rw [ih (j + 1) (by omega), hornerPos_cons]
    have he : bs - 1 - j = ds.length := by omega
    rw [he]

theorem blockVal_eq_hornerPos (r bs : Nat) (block : List Nat) (h : block.length = bs) :
    blockVal r bs block = hornerPos r block :=
  blockValGo_eq_hornerPos r bs block 0 (by omega)

theorem bsDec_pos (c : BaseConverter) (hbse : 0 < c.bsEnc)
    (hcap : 256 ^ c.bsEnc ≤ c.radix ^ c.bsDec) : 0 < c.bsDec := by
  by_contra h
  have h0 : c.bsDec = 0 := by omega
  rw [h0, pow_zero] at hcap
  have h256 : (256 : Nat) ≤ 256 ^ c.bsEnc := by
    calc (256 : Nat) = 256 ^ 1 := (pow_one 256).symm
      _ ≤ 256 ^ c.bsEnc := Nat.pow_le_pow_right (by norm_num) hbse
  omega

theorem encodeBlockDigits_spec (c : BaseConverter) (block : List Nat)
    (hr : 2 ≤ c.radix) (hlen : block.length = c.bsEnc) (hb : ∀ b ∈ block, b < 256)
    (hcap : 256 ^ c.bsEnc ≤ c.radix ^ c.bsDec) (hbse : 0 < c.bsEnc) :
    (encodeBlockDigits c block).length = c.bsDec ∧
    (∀ d ∈ encodeBlockDigits c block, d < c.radix) ∧
    hornerPos c.radix (encodeBlockDigits c block) = hornerPos 256 block := by
  have hbsd : 0 < c.bsDec := bsDec_pos c hbse hcap
  have hv : hornerPos 256 block < 256 ^ c.bsEnc := by
    have := hornerPos_lt 256 block hb
    rwa [hlen] at this
  have hvd : hornerPos 256 block < c.radix ^ c.bsDec := lt_of_lt_of_le hv hcap
  have hdl : (digitsBE c.radix (hornerPos 256 block)).length ≤ c.bsDec :=
    digitsBE_length_le c.radix hr _ c.bsDec hbsd hvd
  refine ⟨?_, ?_, ?_⟩
  · simp only [encodeBlockDigits, List.length_append, List.length_replicate]
    omega
  · intro d hd
    simp only [encodeBlockDigits, List.mem_append] at hd
    rcases hd with hd | hd
    · rw [List.eq_of_mem_replicate hd]
      omega
    · exact digitsBE_mem_lt c.radix hr _ d hd
  · simp only [encodeBlockDigits]
    rw [hornerPos_append, hornerPos_replicate_zero, hornerPos_digitsBE c.radix hr]
    simp

theorem decodeBlockBytes_encodeBlockDigits (c : BaseConverter) (block : List Nat)
    (hr : 2 ≤ c.radix) (hlen : block.length = c.bsEnc) (hb : ∀ b ∈ block, b < 256)
    (hcap : 256 ^ c.bsEnc ≤ c.radix ^ c.bsDec) (hbse : 0 < c.bsEnc) :
    decodeBlockBytes c c.bsDec (encodeBlockDigits c block) = block := by
  obtain ⟨hl, hm, hv⟩ := encodeBlockDigits_spec c block hr hlen hb hcap hbse
  have hvlt : hornerPos 256 block < 256 ^ c.bsEnc := by
    have := hornerPos_lt 256 block hb
    rwa [hlen] at this
  have hdl : (digitsBE 256 (hornerPos 256 block)).length ≤ c.bsEnc :=
    digitsBE_length_le 256 (by norm_num) _ c.bsEnc hbse hvlt
  simp only [decodeBlockBytes]
  rw [blockVal_eq_hornerPos c.radix c.bsDec _ hl, hv]
  apply hornerPos_fixed_inj 256
  · simp only [List.length_append, List.length_replicate]
    omega
  · intro d hd
    simp only [List.mem_append] at hd
    rcases hd with hd | hd
    · rw [List.eq_of_mem_replicate hd]
      norm_num
    · exact digitsBE_mem_lt 256 (by norm_num) _ d hd
  · exact hb
  · rw [hornerPos_append, hornerPos_replicate_zero, hornerPos_digitsBE 256 (by norm_num)]
    simp

theorem encodeChars_eq (c : BaseConverter) (cs : List Char) (blocks : List (List Nat)) :
    (blocks.map (encodeBlock c cs)).flatten
      = ((blocks.map (encodeBlockDigits c)).flatten).map (fun d => cs.getD d ' ') := by
  induction blocks with
  | nil => rfl
  | cons b t ih =>
    simp only [List.map_cons, List.flatten_cons, List.map_append, ih, encodeBlock]

theorem blocks_roundtrip (c : BaseConverter)
    (hr : 2 ≤ c.radix) (hcap : 256 ^ c.bsEnc ≤ c.radix ^ c.bsDec) (hbse : 0 < c.bsEnc) :
    ∀ (k : Nat) (bytes : List Nat), bytes.length = k * c.bsEnc → (∀ b ∈ bytes, b < 256) →
      (∃ m, (((chunks c.bsEnc bytes).map (encodeBlockDigits c)).flatten).length
          = m * c.bsDec) ∧
      (∀ d ∈ ((chunks c.bsEnc bytes).map (encodeBlockDigits c)).flatten, d < c.radix) ∧
      ((chunks c.bsDec (((chunks c.bsEnc bytes).map (encodeBlockDigits c)).flatten)).map
          (decodeBlockBytes c c.bsDec)).flatten = bytes := by
  have hbsd : 0 < c.bsDec := bsDec_pos c hbse hcap
  intro k
  induction k with
  | zero =>
    intro bytes hlen _
    simp only [Nat.zero_mul] at hlen
    rw [List.length_eq_zero.mp hlen]
    exact ⟨⟨0, by simp [chunks_nil]⟩, by simp [chunks_nil], by simp [chunks_nil]⟩
  | succ k ih =>
    intro bytes hlen hb
    have hble : c.bsEnc ≤ bytes.length := by
      have : c.bsEnc ≤ (k + 1) * c.bsEnc := Nat.le_mul_of_pos_left _ (Nat.succ_pos k)
      omega
    have htake : (bytes.take c.bsEnc).length = c.bsEnc := by
      rw [List.length_take]
      omega
    have hdrop : (bytes.drop c.bsEnc).length = k * c.bsEnc := by
      rw [List.length_drop, hlen]
      have : (k + 1) * c.bsEnc = k * c.bsEnc + c.bsEnc := by ring
      omega
    have hbtake : ∀ b ∈ bytes.take c.bsEnc, b < 256 :=
      fun b hbm => hb b (List.mem_of_mem_take hbm)
    have hbdrop : ∀ b ∈ bytes.drop c.bsEnc, b < 256 :=
      fun b hbm => hb b (List.mem_of_mem_drop hbm)
    obtain ⟨⟨m, hm⟩, hmem, hdec⟩ := ih (bytes.drop c.bsEnc) hdrop hbdrop
    obtain ⟨hbl, hbm, _⟩ := encodeBlockDigits_spec c (bytes.take c.bsEnc) hr htake hbtake hcap hbse
    have hsplit : bytes = bytes.take c.bsEnc ++ bytes.drop c.bsEnc :=
      (List.take_append_drop _ _).symm
    have hch : chunks c.bsEnc bytes = bytes.take c.bsEnc :: chunks c.bsEnc (bytes.drop c.bsEnc) := by
      conv_lhs => rw [hsplit]
      exact chunks_append c.bsEnc _ _ hbse htake
    rw [hch]
    simp only [List.map_cons, List.flatten_cons]
    have hch2 : chunks c.bsDec (encodeBlockDigits c (bytes.take c.bsEnc) ++
        ((chunks c.bsEnc (bytes.drop c.bsEnc)).map (encodeBlockDigits c)).flatten)
        = encodeBlockDigits c (bytes.take c.bsEnc) ::
          chunks c.bsDec (((chunks c.bsEnc (bytes.drop c.bsEnc)).map (encodeBlockDigits c)).flatten) :=
      chunks_append c.bsDec _ _ hbsd hbl
    refine ⟨⟨m + 1, ?_⟩, ?_, ?_⟩
    · simp only [List.length_append, hm, hbl]
      ring
    · intro d hd
      rcases List.mem_append.mp hd with hd | hd
      · exact hbm d hd
      · exact hmem d hd
    · rw [hch2]
      simp only [List.map_cons, List.flatten_cons, hdec]
      rw [decodeBlockBytes_encodeBlockDigits c _ hr htake hbtake hcap hbse]
      exact hsplit.symm

theorem encode_chars_be (c : BaseConverter) (cs : List Char) (input : List Nat)
    (hne : ¬ (c.bsEnc = 0)) (h10 : ¬ (c.radix = 10)) :
    (c.encode input cs false).1
      = ((chunks c.bsEnc
          (input ++ List.replicate ((c.bsEnc - input.length % c.bsEnc) % c.bsEnc) 0)).map
            (encodeBlock c cs)).flatten := by
  simp [BaseConverter.encode, BaseConverter.encodeFull, hne, h10]

theorem encode_chars_le (c : BaseConverter) (cs : List Char) (input : List Nat)
    (hne : ¬ (c.bsEnc = 0)) (h10 : ¬ (c.radix = 10)) :
    (c.encode input cs true).1
      = ((chunks c.bsEnc
          (List.replicate ((c.bsEnc - input.length % c.bsEnc) % c.bsEnc) 0 ++ input.reverse)).map
            (encodeBlock c cs)).flatten := by
  simp [BaseConverter.encode, BaseConverter.encodeFull, hne, h10]

theorem decodeFromDigits_full_be (c : BaseConverter) (digits0 : List Nat)
    (hdne : ¬ (c.bsDec = 0)) (hm : ∃ m, digits0.length = m * c.bsDec) :
    c.decodeFromDigits digits0 false
      = some (((chunks c.bsDec digits0).map (decodeBlockBytes c c.bsDec)).flatten) := by
  obtain ⟨m, hm⟩ := hm
  have hpc : (c.bsDec - digits0.length % c.bsDec) % c.bsDec = 0 := by
    have h0 : digits0.length % c.bsDec = 0 := by
      rw [hm]
      exact Nat.mul_mod_left m c.bsDec
    rw [h0, Nat.sub_zero, Nat.mod_self]
  have hpch0 : c.padChars 0 = 0 := by
    simp only [BaseConverter.padChars, Nat.zero_mul, Nat.zero_add]
    exact Nat.div_eq_of_lt (by omega)
  simp [BaseConverter.decodeFromDigits, hdne, hpc, hpch0]

theorem decodeFromDigits_full_le (c : BaseConverter) (digits0 : List Nat)
    (hdne : ¬ (c.bsDec = 0)) (hm : ∃ m, digits0.length = m * c.bsDec) :
    c.decodeFromDigits digits0 true
      = (if 1 < (((chunks c.bsDec digits0).map (decodeBlockBytes c c.bsDec)).flatten).length then
           if (((chunks c.bsDec digits0).map (decodeBlockBytes c c.bsDec)).flatten).all
               (fun x => x = 0) then none
           else some ((if (((chunks c.bsDec digits0).map
                   (decodeBlockBytes c c.bsDec)).flatten).dropWhile (fun x => x = 0) = []
               then [0]
               else (((chunks c.bsDec digits0).map
                   (decodeBlockBytes c c.bsDec)).flatten).dropWhile (fun x => x = 0)).reverse)
         else some (((chunks c.bsDec digits0).map (decodeBlockBytes c c.bsDec)).flatten)) := by
  obtain ⟨m, hm⟩ := hm
  have hpc : (c.bsDec - digits0.length % c.bsDec) % c.bsDec = 0 := by
    have h0 : digits0.length % c.bsDec = 0 := by
      rw [hm]
      exact Nat.mul_mod_left m c.bsDec
    rw [h0, Nat.sub_zero, Nat.mod_self]
  simp only [BaseConverter.decodeFromDigits, if_neg hdne, hpc, List.replicate_zero,
    List.nil_append, List.append_nil, eq_self_iff_true, if_true]

theorem dropWhile_zero_replicate (zp : Nat) (l : List Nat) :
    (List.replicate zp 0 ++ l).dropWhile (fun x => x = 0)
      = l.dropWhile (fun x => x = 0) := by
  induction zp with
  | zero => simp
  | succ n ih => simp [List.replicate_succ, List.dropWhile_cons, ih]

/-- The total padded length `L + zp` is at most one exactly for the
empty input or a single byte with a one-byte block. -/
theorem zp_le_one_iff (E L : Nat) (hE : 0 < E) :
    L + (E - L % E) % E ≤ 1 ↔ (L = 0 ∨ (L = 1 ∧ E = 1)) := by
  constructor
  · intro h
    rcases Nat.eq_zero_or_pos L with rfl | hL
    · exact Or.inl rfl
    · right
      have hL1 : L = 1 := by omega
      subst hL1
      refine ⟨rfl, ?_⟩
      by_contra hE1
      have hE2 : 2 ≤ E := by omega
      have h1 : (1 : Nat) % E = 1 := Nat.mod_eq_of_lt (by omega)
      have h2 : (E - 1) % E = E - 1 := Nat.mod_eq_of_lt (by omega)
      rw [h1, h2] at h
      omega
  · rintro (rfl | ⟨rfl, rfl⟩)
    · simp [Nat.mod_self]
    · decide

/-- The little-endian post-processing of the decoder on the
reconstructed byte array `zero padding ++ input reversed`, split into
the three cases of the source: the single-byte guard
(`b256Array.length > 1` fails), the diverging all-zero loop, and the
ordinary trailing-zero strip. -/
theorem decode_le_cases (zp : Nat) (input : List Nat)
    (hz : input = [] → zp = 0) (B : List Nat)
    (hB : B = List.replicate zp 0 ++ input.reverse) :
    (if 1 < B.length then
       if B.all (fun x => x = 0) then none
       else some ((if B.dropWhile (fun x => x = 0) = [] then [0]
                   else B.dropWhile (fun x => x = 0)).reverse)
     else some B)
    = (if input.length + zp ≤ 1 then some input
       else if input.all (fun x => x = 0) then none
       else some ((input.reverse.dropWhile (fun x => x = 0)).reverse)) := by
  subst hB
  by_cases hle : input.length + zp ≤ 1
  · have hgt : ¬ 1 < (List.replicate zp 0 ++ input.reverse).length := by
      simp
      omega
    rw [if_pos hle, if_neg hgt]
    rcases input with _ | ⟨x, t⟩
    · rw [hz rfl]
      simp
    · have hlen : t.length = 0 ∧ zp = 0 := by
        simp only [List.length_cons] at hle
        omega
      obtain ⟨ht, rfl⟩ := hlen
      obtain rfl := List.length_eq_zero.mp ht
      simp
  · have hgt : 1 < (List.replicate zp 0 ++ input.reverse).length := by
      simp
      omega
    rw [if_neg hle, if_pos hgt]
    by_cases hall : input.all (fun x => x = 0) = true
    · rw [if_pos hall]
      have hallB : (List.replicate zp 0 ++ input.reverse).all (fun x => x = 0) = true := by
        rw [List.all_append, List.all_reverse, hall, Bool.and_true, List.all_eq_true]
        intro x hx
        rw [List.eq_of_mem_replicate hx]
        simp
      rw [if_pos hallB]
    · rw [if_neg hall]
      have hallB : ¬ ((List.replicate zp 0 ++ input.reverse).all
          (fun x => x = 0) = true) := by
        intro hc
        rw [List.all_append, List.all_reverse] at hc
        exact hall (Bool.and_eq_true_iff.mp hc).2
      rw [if_neg hallB, dropWhile_zero_replicate]
      have hne2 : input.reverse.dropWhile (fun x => x = 0) ≠ [] := by
        intro hc
        apply hall
        rw [List.dropWhile_eq_nil_iff] at hc
        rw [List.all_eq_true]
        intro x hx
        exact hc x (List.mem_reverse.mpr hx)
      rw [if_neg hne2]

theorem pad_total_mod (E L : Nat) (hE : 0 < E) : (L + (E - L % E) % E) % E = 0 := by
  rcases Nat.eq_zero_or_pos (L % E) with h0 | hpos
  · rw [h0, Nat.sub_zero, Nat.mod_self, Nat.add_zero]
    exact h0
  · have hrlt : L % E < E := Nat.mod_lt _ hE
    have hlt : E - L % E < E := by omega
    rw [Nat.mod_eq_of_lt hlt]
    have hda := Nat.div_add_mod L E
    have h2 : L + (E - L % E) = E * (L / E) + E := by omega
    rw [h2, Nat.add_mod, Nat.mul_mod_right, Nat.mod_self]
    simp

theorem pad_total_eq (E L : Nat) (hE : 0 < E) :
    ∃ k, L + (E - L % E) % E = k * E := by
  refine ⟨(L + (E - L % E) % E) / E, ?_⟩
  exact (Nat.div_mul_cancel (Nat.dvd_of_mod_eq_zero (pad_total_mod E L hE))).symm

/-- C1 counterexample: for the library's own hexadecimal converter
(`new BaseConverter(16, 1, 2)`) in little-endian mode, decoding the
encoding of the byte sequence `[1, 0]` yields `[1]`, not `[1, 0]`:
the decoder's zero-stripping loop removes the trailing zero byte, so
decode after encode is not the identity. -/
theorem c1_counterexample :
    ¬ (hexConverter.decode (hexConverter.encode [1, 0] hexCharset true).1 hexCharset true
        = some [1, 0]) := by decide

/-- C1 amended: under the stated validity conditions (radix at least 2
and not the radix-10 shortcut, duplicate-free charset of length radix,
positive block size with enough digit capacity for a block of bytes,
bytes below 256), decode after encode is not the identity in general.
Big-endian: decoding returns the input extended by the zero bytes the
encoder padded the last block with (the exact identity iff `bsEnc`
divides the input length).  Little-endian, exhaustively by cases on
the reconstructed array `zero padding ++ input reversed`: when it has
at most one byte (the input is empty, or a single byte with
`bsEnc = 1`) decoding returns the input exactly; when it is longer and
the input is all zero bytes, the decoder's zero-stripping loop
diverges and no result is produced; otherwise decoding returns the
input with its trailing zero bytes stripped (the exact identity iff
the input does not end in a zero byte). -/
theorem c1_amended (c : BaseConverter) (cs : List Char) (input : List Nat)
    (hr : 2 ≤ c.radix) (h10 : ¬ (c.radix = 10)) (hnd : cs.Nodup)
    (hcs : cs.length = c.radix) (hbse : 0 < c.bsEnc)
    (hcap : 256 ^ c.bsEnc ≤ c.radix ^ c.bsDec) (hb : ∀ b ∈ input, b < 256) :
    c.decode (c.encode input cs false).1 cs false
      = some (input ++ List.replicate ((c.bsEnc - input.length % c.bsEnc) % c.bsEnc) 0) ∧
    ((input = [] ∨ (input.length = 1 ∧ c.bsEnc = 1)) →
      c.decode (c.encode input cs true).1 cs true = some input) ∧
    (¬ (input = [] ∨ (input.length = 1 ∧ c.bsEnc = 1)) →
      input.all (fun x => x = 0) = true →
      c.decode (c.encode input cs true).1 cs true = none) ∧
    (¬ (input = [] ∨ (input.length = 1 ∧ c.bsEnc = 1)) →
      ¬ (input.all (fun x => x = 0) = true) →
      c.decode (c.encode input cs true).1 cs true
        = some ((input.reverse.dropWhile (fun x => x = 0)).reverse)) := by
  have hbsd : 0 < c.bsDec := bsDec_pos c hbse hcap
  have hne : ¬ (c.bsEnc = 0) := by omega
  have hdne : ¬ (c.bsDec = 0) := by omega
  have key : ∀ bytes : List Nat, (∃ k, bytes.length = k * c.bsEnc) →
      (∀ b ∈ bytes, b < 256) →
      charsetDigits cs (((chunks c.bsEnc bytes).map (encodeBlock c cs)).flatten)
        = ((chunks c.bsEnc bytes).map (encodeBlockDigits c)).flatten ∧
      (∃ m, (((chunks c.bsEnc bytes).map (encodeBlockDigits c)).flatten).length
          = m * c.bsDec) ∧
      ((chunks c.bsDec (((chunks c.bsEnc bytes).map (encodeBlockDigits c)).flatten)).map
          (decodeBlockBytes c c.bsDec)).flatten = bytes := by
    rintro bytes ⟨k, hk⟩ hbb
    obtain ⟨hmlen, hmem, hdec⟩ := blocks_roundtrip c hr hcap hbse k bytes hk hbb
    refine ⟨?_, hmlen, hdec⟩
    rw [encodeChars_eq]
    exact charsetDigits_map_getD cs hnd _ (fun d hd => by rw [hcs]; exact hmem d hd)
  have hBE : c.decode (c.encode input cs false).1 cs false
      = some (input ++ List.replicate
          ((c.bsEnc - input.length % c.bsEnc) % c.bsEnc) 0) := by
    have hdvd : ∃ k, (input ++ List.replicate
        ((c.bsEnc - input.length % c.bsEnc) % c.bsEnc) 0).length = k * c.bsEnc := by
      obtain ⟨k, hk⟩ := pad_total_eq c.bsEnc input.length hbse
      refine ⟨k, ?_⟩
      rw [List.length_append, List.length_replicate]
      exact hk
    have hbb : ∀ b ∈ input ++ List.replicate
        ((c.bsEnc - input.length % c.bsEnc) % c.bsEnc) 0, b < 256 := by
      intro b hbm
      rcases List.mem_append.mp hbm with h | h
      · exact hb b h
      · rw [List.eq_of_mem_replicate h]
        norm_num
    obtain ⟨hcd, hmex, hdec⟩ := key _ hdvd hbb
    rw [encode_chars_be c cs input hne h10, decode_eq_fromDigits, hcd,
      decodeFromDigits_full_be c _ hdne hmex, hdec]
  have hLE : c.decode (c.encode input cs true).1 cs true
      = (if input.length + (c.bsEnc - input.length % c.bsEnc) % c.bsEnc ≤ 1 then
           some input
         else if input.all (fun x => x = 0) then none
         else some ((input.reverse.dropWhile (fun x => x = 0)).reverse)) := by
    have hdvd : ∃ k, (List.replicate
        ((c.bsEnc - input.length % c.bsEnc) % c.bsEnc) 0
          ++ input.reverse).length = k * c.bsEnc := by
      obtain ⟨k, hk⟩ := pad_total_eq c.bsEnc input.length hbse
      refine ⟨k, ?_⟩
      rw [List.length_append, List.length_replicate, List.length_reverse, Nat.add_comm]
      exact hk
    have hbb : ∀ b ∈ List.replicate
        ((c.bsEnc - input.length % c.bsEnc) % c.bsEnc) 0
          ++ input.reverse, b < 256 := by
      intro b hbm
      rcases List.mem_append.mp hbm with h | h
      · rw [List.eq_of_mem_replicate h]
        norm_num
      · exact hb b (List.mem_reverse.mp h)
    obtain ⟨hcd, hmex, hdec⟩ := key _ hdvd hbb
    rw [encode_chars_le c cs input hne h10, decode_eq_fromDigits, hcd,
      decodeFromDigits_full_le c _ hdne hmex, hdec]
    exact decode_le_cases _ input
      (fun h => by subst h; simp [Nat.mod_self]) _ rfl
  have hiff : (input.length + (c.bsEnc - input.length % c.bsEnc) % c.bsEnc ≤ 1)
      ↔ (input = [] ∨ (input.length = 1 ∧ c.bsEnc = 1)) := by
    rw [zp_le_one_iff c.bsEnc input.length hbse]
    constructor
    · rintro (h | h)
      · exact Or.inl (List.length_eq_zero.mp h)
      · exact Or.inr h
    · rintro (h | h)
      · exact Or.inl (by simp [h])
      · exact Or.inr h
  refine ⟨hBE, ?_, ?_, ?_⟩
  · intro hP
    rw [hLE, if_pos (hiff.mpr hP)]
  · intro hP hall
    rw [hLE, if_neg (fun hc => hP (hiff.mp hc)), if_pos hall]
  · intro hP hall
    rw [hLE, if_neg (fun hc => hP (hiff.mp hc)), if_neg hall]

theorem c1_witness :
    hexConverter.decode (hexConverter.encode [1, 2] hexCharset false).1 hexCharset false
      = some ([1, 2] ++ List.replicate
          ((hexConverter.bsEnc - [1, 2].length % hexConverter.bsEnc) % hexConverter.bsEnc) 0) ∧
    hexConverter.decode (hexConverter.encode [0] hexCharset true).1 hexCharset true
      = some [0] ∧
    hexConverter.decode (hexConverter.encode [0, 0] hexCharset true).1 hexCharset true
      = none ∧
    hexConverter.decode (hexConverter.encode [1, 0] hexCharset true).1 hexCharset true
      = some (([1, 0].reverse.dropWhile (fun x => x = 0)).reverse) :=
  ⟨(c1_amended hexConverter hexCharset [1, 2] (by decide) (by decide) (by decide) (by decide)
      (by decide) (by decide) (by decide)).1,
   (c1_amended hexConverter hexCharset [0] (by decide) (by decide) (by decide) (by decide)
      (by decide) (by decide) (by decide)).2.1 (by decide),
   (c1_amended hexConverter hexCharset [0, 0] (by decide) (by decide) (by decide) (by decide)
      (by decide) (by decide) (by decide)).2.2.1 (by decide) (by decide),
   (c1_amended hexConverter hexCharset [1, 0] (by decide) (by decide) (by decide) (by decide)
      (by decide) (by decide) (by decide)).2.2.2 (by decide) (by decide)⟩
